import Mathlib

/-!
Verification of the wabznasm incremental parsing engine specification.

The repository ships only the C binding header
(`src/grammar/bindings/swift/TreeSitterWabznasm/wabznasm.h`, modelled in the
`Binding` section below).  The engine itself — lexer, table-driven parser,
incremental reuse engine, error recovery — is not part of the source tree, so
it is modelled here from the specification's own words: a byte-level lexer, a
line-structured grammar in the style of the specification's examples
(`1 + 2`, `1 + `), error recovery by error-node synthesis resynchronising at
line terminators, and an incremental reuse engine that summarises an edit
sequence into an invalidated window, reuses the top-level subtrees outside
that window (translating their ranges), and re-parses only the window.
-/

namespace Wabznasm

/-- Source text is a sequence of bytes. -/
abbrev Src := List Nat

/-- Modelled from the spec: the newline byte, the statement terminator used as
the resynchronisation anchor by error recovery. -/
def nlB : Nat := 10

/-- Modelled from the spec: the space byte, skipped by the lexer. -/
def spaceB : Nat := 32

/-- Modelled from the spec: the plus byte, the binary operator of the example
grammar. -/
def plusB : Nat := 43

/-- Modelled from the spec: digit recognition for number tokens. -/
def isDigit (b : Nat) : Bool := 48 ≤ b && b ≤ 57

/-- Symbol id of the root node. -/
def rootSym : Nat := 0

/-- Symbol id of a number token node. -/
def numberSym : Nat := 1

/-- Symbol id of a plus token node. -/
def plusSym : Nat := 2

/-- Symbol id of a binary-expression node. -/
def binarySym : Nat := 3

/-- Symbol id marking a synthesised error node. -/
def errorSym : Nat := 4

/-- Symbol id of a token produced where no token matches (lexical error);
such tokens are always wrapped inside an `errorSym` node. -/
def lexErrSym : Nat := 5

/-- Modelled from the spec: a Token is a symbol identifier plus a half-open
byte range.  Point positions are derived from byte offsets and the text, so
they are not stored separately. -/
structure Tok where
  sym : Nat
  tkS : Nat
  tkE : Nat
deriving DecidableEq, Repr

mutual
/-- Modelled from the spec: a Tree Node has a symbol id, a half-open byte
range and an ordered sequence of child nodes (source order).  Point ranges
are derived from byte offsets and the source text.  A Tree is rooted at a
single top-level node. -/
inductive Node : Type where
  | mk (sym a b : Nat) (kids : NodeList) : Node
/-- Child sequence of a `Node` (a mutual inductive so that all tree
operations are structurally recursive and computable). -/
inductive NodeList : Type where
  | nil : NodeList
  | cons (n : Node) (ns : NodeList) : NodeList
end

/-- List view of a child sequence. -/
def NodeList.toL : NodeList → List Node
  | .nil => []
  | .cons n ns => n :: ns.toL

/-- Child sequence built from a list. -/
def NodeList.ofL : List Node → NodeList
  | [] => .nil
  | n :: ns => .cons n (NodeList.ofL ns)

theorem NodeList.toL_ofL (l : List Node) : (NodeList.ofL l).toL = l := by
  induction l with
  | nil => rfl
  | cons n ns ih => simp [NodeList.ofL, NodeList.toL, ih]

theorem NodeList.ofL_toL : ∀ ns : NodeList, NodeList.ofL ns.toL = ns
  | .nil => rfl
  | .cons n ns => by simp [NodeList.ofL, NodeList.toL, NodeList.ofL_toL ns]

theorem NodeList.ofL_inj {l₁ l₂ : List Node} (h : NodeList.ofL l₁ = NodeList.ofL l₂) :
    l₁ = l₂ := by
  have := congrArg NodeList.toL h
  rwa [NodeList.toL_ofL, NodeList.toL_ofL] at this

/-- Node constructor taking the children as a plain list. -/
def node (sym a b : Nat) (kids : List Node) : Node := .mk sym a b (.ofL kids)

/-- Symbol id of a node. -/
def Node.symN : Node → Nat
  | .mk s _ _ _ => s

/-- Start byte of a node's half-open range. -/
def Node.sB : Node → Nat
  | .mk _ a _ _ => a

/-- End byte (exclusive) of a node's half-open range. -/
def Node.eB : Node → Nat
  | .mk _ _ b _ => b

/-- Children of a node, in source order. -/
def Node.kidsL : Node → List Node
  | .mk _ _ _ cs => cs.toL

@[simp] theorem symN_mk (s a b : Nat) (cs : NodeList) : (Node.mk s a b cs).symN = s := rfl

@[simp] theorem sB_mk (s a b : Nat) (cs : NodeList) : (Node.mk s a b cs).sB = a := rfl

@[simp] theorem eB_mk (s a b : Nat) (cs : NodeList) : (Node.mk s a b cs).eB = b := rfl

@[simp] theorem kidsL_mk (s a b : Nat) (cs : NodeList) : (Node.mk s a b cs).kidsL = cs.toL := rfl

@[simp] theorem symN_node (s a b : Nat) (cs : List Node) : (node s a b cs).symN = s := rfl

@[simp] theorem sB_node (s a b : Nat) (cs : List Node) : (node s a b cs).sB = a := rfl

@[simp] theorem eB_node (s a b : Nat) (cs : List Node) : (node s a b cs).eB = b := rfl

@[simp] theorem kidsL_node (s a b : Nat) (cs : List Node) : (node s a b cs).kidsL = cs := by
  simp [node, Node.kidsL, NodeList.toL_ofL]

theorem node_injEq {s a b s' a' b' : Nat} {cs cs' : List Node} :
    node s a b cs = node s' a' b' cs' ↔ s = s' ∧ a = a' ∧ b = b' ∧ cs = cs' := by
  constructor
  · intro h
    injection h with h1 h2 h3 h4
    exact ⟨h1, h2, h3, NodeList.ofL_inj h4⟩
  · rintro ⟨rfl, rfl, rfl, rfl⟩
    rfl

theorem node_ext (n : Node) : n = node n.symN n.sB n.eB n.kidsL := by
  cases n with
  | mk s a b cs => simp [node, Node.symN, Node.sB, Node.eB, Node.kidsL, NodeList.ofL_toL]

mutual
/-- Boolean equality on nodes. -/
def beqN : Node → Node → Bool
  | .mk s a b cs, .mk s' a' b' cs' => s == s' && a == a' && b == b' && beqL cs cs'
/-- Boolean equality on child sequences. -/
def beqL : NodeList → NodeList → Bool
  | .nil, .nil => true
  | .cons c cs, .cons c' cs' => beqN c c' && beqL cs cs'
  | _, _ => false
end

mutual
theorem beqN_iff : ∀ n m : Node, beqN n m = true ↔ n = m
  | .mk s a b cs, .mk s' a' b' cs' => by
    rw [beqN]
    simp only [Bool.and_eq_true, beq_iff_eq, Node.mk.injEq]
    rw [beqL_iff cs cs']
    tauto
theorem beqL_iff : ∀ ns ms : NodeList, beqL ns ms = true ↔ ns = ms
  | .nil, .nil => by simp [beqL]
  | .nil, .cons _ _ => by simp [beqL]
  | .cons _ _, .nil => by simp [beqL]
  | .cons c cs, .cons c' cs' => by
    rw [beqL]
    simp only [Bool.and_eq_true, NodeList.cons.injEq]
    rw [beqN_iff c c', beqL_iff cs cs']
end

instance : DecidableEq Node := fun n m =>
  decidable_of_iff (beqN n m = true) (beqN_iff n m)

mutual
/-- Translate all byte positions of a subtree upward by `k` (range
translation of a reused subtree). -/
def shiftUp (k : Nat) : Node → Node
  | .mk s a b cs => .mk s (a + k) (b + k) (shiftUpL k cs)
/-- Translate all byte positions of a child sequence upward by `k`. -/
def shiftUpL (k : Nat) : NodeList → NodeList
  | .nil => .nil
  | .cons c cs => .cons (shiftUp k c) (shiftUpL k cs)
end

theorem shiftUpL_ofL (k : Nat) (l : List Node) :
    shiftUpL k (NodeList.ofL l) = NodeList.ofL (l.map (shiftUp k)) := by
  induction l with
  | nil => rfl
  | cons c cs ih => simp [NodeList.ofL, shiftUpL, ih]

theorem shiftUp_node (k s a b : Nat) (cs : List Node) :
    shiftUp k (node s a b cs) = node s (a + k) (b + k) (cs.map (shiftUp k)) := by
  simp [node, shiftUp, shiftUpL_ofL]

mutual
theorem shiftUp_comp (j k : Nat) : ∀ n, shiftUp j (shiftUp k n) = shiftUp (k + j) n
  | .mk s a b cs => by
    rw [shiftUp, shiftUp, shiftUp, shiftUpL_comp j k cs]
    congr 1 <;> omega
theorem shiftUpL_comp (j k : Nat) : ∀ ns, shiftUpL j (shiftUpL k ns) = shiftUpL (k + j) ns
  | .nil => rfl
  | .cons c cs => by
    rw [shiftUpL, shiftUpL, shiftUpL, shiftUp_comp j k c, shiftUpL_comp j k cs]
end

mutual
theorem shiftUp_zero : ∀ n, shiftUp 0 n = n
  | .mk s a b cs => by
    rw [shiftUp, shiftUpL_zero cs]
    simp
theorem shiftUpL_zero : ∀ ns, shiftUpL 0 ns = ns
  | .nil => rfl
  | .cons c cs => by
    rw [shiftUpL, shiftUp_zero c, shiftUpL_zero cs]
end

@[simp] theorem sB_shiftUp (k : Nat) (n : Node) : (shiftUp k n).sB = n.sB + k := by
  cases n with
  | mk s a b cs => rw [shiftUp]; rfl

@[simp] theorem eB_shiftUp (k : Nat) (n : Node) : (shiftUp k n).eB = n.eB + k := by
  cases n with
  | mk s a b cs => rw [shiftUp]; rfl

@[simp] theorem symN_shiftUp (k : Nat) (n : Node) : (shiftUp k n).symN = n.symN := by
  cases n with
  | mk s a b cs => rw [shiftUp]; rfl

mutual
/-- Downward translation of all byte positions by `k` (truncated
subtraction; used only on subtrees lying at or above position `k`). -/
def shiftDown (k : Nat) : Node → Node
  | .mk s a b cs => .mk s (a - k) (b - k) (shiftDownL k cs)
/-- Downward translation of a child sequence. -/
def shiftDownL (k : Nat) : NodeList → NodeList
  | .nil => .nil
  | .cons c cs => .cons (shiftDown k c) (shiftDownL k cs)
end

mutual
theorem shiftDown_shiftUp (k : Nat) : ∀ n, shiftDown k (shiftUp k n) = n
  | .mk s a b cs => by
    rw [shiftUp, shiftDown, shiftDownL_shiftUpL k cs]
    congr 1 <;> omega
theorem shiftDownL_shiftUpL (k : Nat) : ∀ ns, shiftDownL k (shiftUpL k ns) = ns
  | .nil => rfl
  | .cons c cs => by
    rw [shiftUpL, shiftDownL, shiftDown_shiftUp k c, shiftDownL_shiftUpL k cs]
end

/-- Relocate a subtree parsed at old base offset `a` to new base offset `b`
(reuse with range translation by the cumulative shift `b - a`). -/
def moveNode (a b : Nat) (n : Node) : Node := shiftUp b (shiftDown a n)

theorem moveNode_shiftUp (a b : Nat) (n : Node) :
    moveNode a b (shiftUp a n) = shiftUp b n := by
  rw [moveNode, shiftDown_shiftUp]

mutual
/-- Modelled from the spec: the marker for "is this node or any descendant an
error", computed over the tree. -/
def hasErr : Node → Bool
  | .mk s _ _ cs => s == errorSym || hasErrL cs
/-- Error marker over a child sequence. -/
def hasErrL : NodeList → Bool
  | .nil => false
  | .cons c cs => hasErr c || hasErrL cs
end

theorem hasErrL_ofL (l : List Node) :
    hasErrL (NodeList.ofL l) = l.any hasErr := by
  induction l with
  | nil => rfl
  | cons c cs ih => simp [NodeList.ofL, hasErrL, ih]

theorem hasErr_node (s a b : Nat) (cs : List Node) :
    hasErr (node s a b cs) = (s == errorSym || cs.any hasErr) := by
  simp [node, hasErr, hasErrL_ofL]

mutual
theorem hasErr_shiftUp (k : Nat) : ∀ n, hasErr (shiftUp k n) = hasErr n
  | .mk s a b cs => by
    rw [shiftUp, hasErr, hasErr, hasErrL_shiftUpL k cs]
theorem hasErrL_shiftUpL (k : Nat) : ∀ ns, hasErrL (shiftUpL k ns) = hasErrL ns
  | .nil => rfl
  | .cons c cs => by
    rw [shiftUpL, hasErrL, hasErrL, hasErr_shiftUp k c, hasErrL_shiftUpL k cs]
end

/-- Modelled from the spec: the Lexer/Scanner converts a byte-position cursor
into a stream of terminal tokens.  `p` is the cursor, the `Option Nat`
argument is the start of a number token currently being matched (maximal
munch), and the remaining bytes follow.  Spaces are skipped; a byte no token
matches becomes a `lexErrSym` token (lexical errors never abort lexing). -/
def lexGo : Nat → Option Nat → Src → List Tok
  | _, none, [] => []
  | p, some s, [] => [⟨numberSym, s, p⟩]
  | p, none, b :: bs =>
    if isDigit b then lexGo (p + 1) (some p) bs
    else if b = plusB then ⟨plusSym, p, p + 1⟩ :: lexGo (p + 1) none bs
    else if b = spaceB then lexGo (p + 1) none bs
    else ⟨lexErrSym, p, p + 1⟩ :: lexGo (p + 1) none bs
  | p, some s, b :: bs =>
    if isDigit b then lexGo (p + 1) (some s) bs
    else if b = plusB then ⟨numberSym, s, p⟩ :: ⟨plusSym, p, p + 1⟩ :: lexGo (p + 1) none bs
    else if b = spaceB then ⟨numberSym, s, p⟩ :: lexGo (p + 1) none bs
    else ⟨numberSym, s, p⟩ :: ⟨lexErrSym, p, p + 1⟩ :: lexGo (p + 1) none bs

/-- Token stream of one line (positions relative to the line start). -/
def lexLine (bs : Src) : List Tok := lexGo 0 none bs

/-- Leaf node of a token. -/
def tokLeaf (t : Tok) : Node := node t.sym t.tkS t.tkE []

/-- End byte of the last token of a nonempty token group. -/
def lastStop (t : Tok) : List Tok → Nat
  | [] => t.tkE
  | u :: us => lastStop u us

/-- Modelled from the spec: error-node synthesis — wrap an unconsumed token
region in a generic error node (the tokens stay as its leaves). -/
def errNode (t : Tok) (ts : List Tok) : Node :=
  node errorSym t.tkS (lastStop t ts) ((t :: ts).map tokLeaf)

/-- Binary-expression node built by a reduction: left operand, operator
token, right operand, in source order. -/
def binNode (acc : Node) (t u : Tok) : Node :=
  node binarySym acc.sB u.tkE [acc, tokLeaf t, tokLeaf u]

/-- Binary-expression node whose right part is a synthesised error node
(recovery for a trailing or malformed operand). -/
def binErrNode (acc e : Node) : Node :=
  node binarySym acc.sB e.eB [acc, e]

/-- Modelled from the spec: the parser loop for one expression.  It consumes
`plus number` pairs left-associatively; on a `plus` with no valid operand it
recovers by synthesising an error node over the unconsumed tokens.  Tokens
that cannot continue the expression are left for the caller, which wraps
them in an error node and resynchronises at the line terminator. -/
def parseExprLoop (acc : Node) : List Tok → Node × List Tok
  | [] => (acc, [])
  | [t] => if t.sym = plusSym then (binErrNode acc (errNode t []), []) else (acc, [t])
  | t :: u :: ts =>
    if t.sym = plusSym then
      if u.sym = numberSym then parseExprLoop (binNode acc t u) ts
      else (binErrNode acc (errNode t (u :: ts)), [])
    else (acc, t :: u :: ts)

/-- Modelled from the spec: parse one line (one statement of the grammar);
a line that is not a single well-formed expression yields error nodes but
never aborts. -/
def parseLineRel (bs : Src) : List Node :=
  match lexLine bs with
  | [] => []
  | t :: ts =>
    if t.sym = numberSym then
      match parseExprLoop (tokLeaf t) ts with
      | (e, []) => [e]
      | (e, r :: rs) => [e, errNode r rs]
    else [errNode t ts]

/-- Split into lines, accumulating the current line (newline bytes are
dropped; they separate the top-level statements). -/
def linesGo (cur : Src) : Src → List Src
  | [] => [cur]
  | b :: bs => if b = nlB then cur :: linesGo [] bs else linesGo (cur ++ [b]) bs

/-- Lines of a source text. -/
def linesOf (s : Src) : List Src := linesGo [] s

/-- Assemble the top-level nodes of a line list: each line is parsed at
relative positions and then translated past the preceding lines and their
terminators. -/
def assemble : List Src → List Node
  | [] => []
  | l :: ls => parseLineRel l ++ (assemble ls).map (shiftUp (l.length + 1))

/-- Top-level nodes of a source text. -/
def parseFrom (s : Src) : List Node := assemble (linesOf s)

/-- Modelled from the spec: the full from-scratch parse.  The root node
always spans the entire input; malformed regions become error nodes, so
parsing is total and never returns an empty result. -/
def parse (s : Src) : Node := node rootSym 0 s.length (parseFrom s)

/-- Grammar acceptance of one line's token stream, tail part: a possibly
empty repetition of `plus number`. -/
def wfTail : List Tok → Bool
  | [] => true
  | [_] => false
  | t :: u :: ts => t.sym == plusSym && u.sym == numberSym && wfTail ts

/-- Grammar acceptance of one line's token stream: empty, or
`number (plus number)*`. -/
def wellFormedLine (ts : List Tok) : Bool :=
  match ts with
  | [] => true
  | t :: ts => t.sym == numberSym && wfTail ts

/-- Modelled from the spec: an input is well-formed (accepted by the
grammar) when every line's token stream is accepted. -/
def wellFormed (s : Src) : Bool :=
  (linesOf s).all (fun l => wellFormedLine (lexLine l))

/-- Modelled from the spec: an Edit Descriptor — start byte, old end byte and
new end byte of one text mutation.  The corresponding point positions are
derived from byte offsets and the text, so they are not stored separately. -/
structure InputEdit where
  startByte : Nat
  oldEndByte : Nat
  newEndByte : Nat
deriving DecidableEq, Repr

/-- One text mutation `e` turning `t` into `t'`: the descriptor is valid
against `t`, the bytes before `startByte` and the bytes after the edited
region are preserved, and the lengths match. -/
def editStep (t : Src) (e : InputEdit) (t' : Src) : Prop :=
  e.startByte ≤ e.oldEndByte ∧ e.oldEndByte ≤ t.length ∧
  e.startByte ≤ e.newEndByte ∧ e.newEndByte ≤ t'.length ∧
  t'.length + e.oldEndByte = t.length + e.newEndByte ∧
  t'.take e.startByte = t.take e.startByte ∧
  t'.drop e.newEndByte = t.drop e.oldEndByte

instance (t : Src) (e : InputEdit) (t' : Src) : Decidable (editStep t e t') := by
  unfold editStep
  infer_instance

/-- Modelled from the spec: an ordered Edit Descriptor sequence applied to a
source text, each edit referencing offsets valid against the document state
after all prior edits, producing the final text. -/
def EditScript : Src → List InputEdit → Src → Prop
  | t, [], t'' => t = t''
  | t, e :: es, t'' => ∃ t', editStep t e t' ∧ EditScript t' es t''

/-- Summary of an edit sequence: `lo` is a position (in original-text
coordinates, also valid for the final text) strictly below which nothing was
edited; bytes of the final text at or beyond `hiCur` coincide with the bytes
of the original text at or beyond `oldHi`. -/
structure EditSummary where
  lo : Nat
  oldHi : Nat
  hiCur : Nat
deriving DecidableEq, Repr

/-- Fold one edit into the summary (all positions conservative). -/
def summStep (σ : EditSummary) (e : InputEdit) : EditSummary :=
  ⟨min σ.lo e.startByte,
   σ.oldHi + (e.oldEndByte - σ.hiCur),
   e.newEndByte + (σ.hiCur - e.oldEndByte)⟩

/-- Summary of a whole edit sequence against a document of length `len`. -/
def summOf (len : Nat) (es : List InputEdit) : EditSummary :=
  es.foldl summStep ⟨len, 0, 0⟩

/-- Largest line-start position of `u` (0, or the position right after the
last newline of `u`). -/
def lastBoundary : Src → Nat
  | [] => 0
  | b :: bs =>
    let r := lastBoundary bs
    if r = 0 then (if b = nlB then 1 else 0) else r + 1

/-- Index of the first newline byte, if any. -/
def nlSearch : Src → Option Nat
  | [] => none
  | b :: bs => if b = nlB then some 0 else (nlSearch bs).map (· + 1)

/-- First line-start position of `s` at or after `p` that closes the line
containing `p` (position right after the first newline at or past `p`), or
the end of the text. -/
def breakAfter (s : Src) (p : Nat) : Nat :=
  match nlSearch (s.drop p) with
  | some q => p + q + 1
  | none => s.length

/-- Modelled from the spec: the Incremental Reuse Engine.  Given the
previous Tree, the ordered Edit Descriptor sequence and the new source
bytes, it summarises the edits into an invalidated window, widens the window
conservatively to whole lines (subtrees adjacent to an edit boundary are
invalidated), reuses the top-level subtrees before the window verbatim and
the ones after the window with their ranges translated by the cumulative
shift, and re-lexes/re-parses only the window. -/
def incrementalParse (oldTree : Node) (edits : List InputEdit) (newSrc : Src) : Node :=
  let σ := summOf oldTree.eB edits
  let b1 := lastBoundary (newSrc.take (min σ.lo newSrc.length))
  let b2 := max b1 (breakAfter newSrc σ.hiCur)
  let oldB2 := σ.oldHi + (b2 - σ.hiCur)
  let pre := oldTree.kidsL.filter (fun c => decide (c.sB < b1))
  let mid := (parseFrom ((newSrc.drop b1).take (b2 - b1))).map (shiftUp b1)
  let suf := (oldTree.kidsL.filter (fun c => decide (oldB2 ≤ c.sB))).map (moveNode oldB2 b2)
  node rootSym 0 newSrc.length (pre ++ mid ++ suf)

theorem map_shiftUp_zero (l : List Node) : l.map (shiftUp 0) = l := by
  rw [show shiftUp 0 = id from funext shiftUp_zero, List.map_id]

theorem map_shiftUp_comp (j k : Nat) (l : List Node) :
    (l.map (shiftUp k)).map (shiftUp j) = l.map (shiftUp (k + j)) := by
  rw [List.map_map]
  exact List.map_congr_left fun n _ => shiftUp_comp j k n

/-- Position `k` is a line boundary of `s`: the very beginning, past the end,
or right after a newline byte. -/
def IsBreak (s : Src) (k : Nat) : Prop :=
  k = 0 ∨ s.length ≤ k ∨ s[k - 1]? = some nlB

/-- Byte predicate separating line content from the terminator. -/
def notNl (b : Nat) : Bool := b != nlB

theorem linesGo_eq (bs : Src) : ∀ cur : Src,
    linesGo cur bs = (cur ++ bs.takeWhile notNl) ::
      (match bs.dropWhile notNl with
       | [] => []
       | _ :: bs' => linesGo [] bs') := by
  induction bs with
  | nil => intro cur; simp [linesGo, List.takeWhile_nil, List.dropWhile_nil]
  | cons b bs ih =>
    intro cur
    by_cases hb : b = nlB
    · subst hb
      have hnp : notNl nlB = false := by simp [notNl]
      simp only [linesGo, if_pos rfl, List.takeWhile_cons, hnp, List.dropWhile_cons, hnp]
      simp
    · have hnp : notNl b = true := by simp [notNl, hb]
      simp only [linesGo, if_neg hb, List.takeWhile_cons, hnp, List.dropWhile_cons, hnp]
      rw [ih (cur ++ [b])]
      simp

theorem parseFrom_unfold (s : Src) :
    parseFrom s = parseLineRel (s.takeWhile notNl) ++
      (match s.dropWhile notNl with
       | [] => []
       | _ :: s' => (parseFrom s').map (shiftUp ((s.takeWhile notNl).length + 1))) := by
  rw [parseFrom, linesOf, linesGo_eq]
  cases h : s.dropWhile notNl with
  | nil => simp only [assemble, h]; simp
  | cons r s' =>
    simp only [assemble, h]
    rw [parseFrom, linesOf]
    simp

theorem parseLineRel_nil : parseLineRel [] = [] := rfl

theorem parseFrom_nil : parseFrom [] = [] := rfl

theorem dropWhile_head_false {p : Nat → Bool} : ∀ (l : Src) (x : Nat) (xs : Src),
    l.dropWhile p = x :: xs → p x = false := by
  intro l
  induction l with
  | nil => intro x xs h; simp [List.dropWhile_nil] at h
  | cons b bs ih =>
    intro x xs h
    rw [List.dropWhile_cons] at h
    by_cases hb : p b = true
    · rw [if_pos hb] at h; exact ih x xs h
    · rw [if_neg hb] at h
      injection h with h1 _
      subst h1
      exact Bool.eq_false_iff.mpr hb

theorem takeWhile_app {p : Nat → Bool} (L : Src) (x : Nat) (M : Src)
    (hL : ∀ y ∈ L, p y = true) (hx : p x = false) :
    (L ++ x :: M).takeWhile p = L ∧ (L ++ x :: M).dropWhile p = x :: M := by
  induction L with
  | nil =>
    constructor
    · simp [List.takeWhile_cons, hx]
    · simp [List.dropWhile_cons, hx]
  | cons a L ih =>
    have ha : p a = true := hL a (List.mem_cons_self a L)
    have hL' : ∀ y ∈ L, p y = true := fun y hy => hL y (List.mem_cons_of_mem a hy)
    obtain ⟨ih1, ih2⟩ := ih hL'
    constructor
    · simp [List.takeWhile_cons, ha, ih1]
    · simp [List.dropWhile_cons, ha, ih2]

theorem parseFrom_split_aux : ∀ (n : Nat) (s : Src), s.length ≤ n → ∀ (k : Nat), IsBreak s k →
    parseFrom s = parseFrom (s.take k) ++ (parseFrom (s.drop k)).map (shiftUp k) := by
  intro n
  induction n with
  | zero =>
    intro s hs k _
    have : s = [] := List.eq_nil_of_length_eq_zero (by omega)
    subst this
    simp [parseFrom_nil]
  | succ n ih =>
  intro s hn k hk
  by_cases hk0 : k = 0
  · subst hk0
    simp [parseFrom_nil, map_shiftUp_zero]
  by_cases hkbig : s.length ≤ k
  · rw [List.take_of_length_le hkbig, List.drop_eq_nil_of_le hkbig, parseFrom_nil]
    simp
  · have hknl : s[k - 1]? = some nlB := by
      rcases hk with h | h | h
      · exact absurd h hk0
      · exact absurd h hkbig
      · exact h
    have hkpos : 0 < k := by omega
    have hklen : k ≤ s.length := by omega
    set L := s.takeWhile notNl with hL
    set R := s.dropWhile notNl with hR
    have hsplit : L ++ R = s := List.takeWhile_append_dropWhile notNl s
    have hLmem : ∀ y ∈ L, notNl y = true := fun y hy => List.mem_takeWhile_imp hy
    have hjk : L.length < k := by
      by_contra hge
      push_neg at hge
      have h1 : k - 1 < L.length := by omega
      have h2 : s[k - 1]? = L[k - 1]? := by
        conv_lhs => rw [← hsplit]
        exact List.getElem?_append_left h1
      rw [h2] at hknl
      have : nlB ∈ L := List.getElem?_mem hknl
      have := hLmem nlB this
      simp [notNl] at this
    set j := L.length with hj
    have hRne : R ≠ [] := by
      intro hre
      have : L.length = s.length := by
        have := congrArg List.length hsplit
        simp [hre] at this
        omega
      omega
    obtain ⟨r, s', hrs⟩ := List.exists_cons_of_ne_nil hRne
    have hrn : notNl r = false := dropWhile_head_false s r s' (hR ▸ hrs)
    have hrnl : r = nlB := by
      simp [notNl] at hrn
      exact hrn
    have htake : s.take j = L := by
      conv_lhs => rw [← hsplit]
      exact List.take_left' rfl
    have hdrop : s.drop j = R := by
      conv_lhs => rw [← hsplit]
      exact List.drop_left' rfl
    have hdropj1 : s.drop (j + 1) = s' := by
      have : s.drop (j + 1) = (s.drop j).drop 1 := by
        rw [List.drop_drop]
      rw [this, hdrop, hrs]
      rfl
    have hslen : s'.length = s.length - (j + 1) := by
      have h1 := congrArg List.length hdropj1
      simp at h1
      omega
    have hPF : parseFrom s = parseLineRel L ++ (parseFrom s').map (shiftUp (j + 1)) := by
      rw [parseFrom_unfold s, ← hL, ← hR, hrs]
    by_cases hkj : k = j + 1
    · -- the break is exactly the end of the first line
      subst hkj
      have htk : s.take (j + 1) = L ++ [r] := by
        conv_lhs => rw [← hsplit]
        rw [hj, List.take_append, hrs]
        rfl
      have hpf2 : parseFrom (s.take (j + 1)) = parseLineRel L := by
        rw [htk, parseFrom_unfold]
        have happ := takeWhile_app L r [] hLmem hrn
        rw [happ.1, happ.2]
        simp [parseFrom_nil]
      rw [hPF, hpf2, hdropj1]
    · -- the break lies strictly beyond the first line
      have hkj2 : j + 1 < k := by omega
      set k' := k - (j + 1) with hk'
      have hbrk' : IsBreak s' k' := by
        right; right
        rw [← hdropj1, List.getElem?_drop]
        have : j + 1 + (k' - 1) = k - 1 := by omega
        rw [this]
        exact hknl
      have ihs' := ih s' (by omega) k' hbrk'
      have hdropk : s.drop k = s'.drop k' := by
        rw [← hdropj1, List.drop_drop]
        congr 1
        omega
      have htakek : s.take k = L ++ r :: s'.take k' := by
        conv_lhs => rw [← hsplit]
        rw [show k = L.length + (k' + 1) by omega, List.take_append, hrs]
        rfl
      have hpf2 : parseFrom (s.take k) =
          parseLineRel L ++ (parseFrom (s'.take k')).map (shiftUp (j + 1)) := by
        rw [htakek, parseFrom_unfold]
        have happ := takeWhile_app L r (s'.take k') hLmem hrn
        rw [happ.1, happ.2]
      rw [hPF, ihs', hdropk, hpf2]
      rw [List.map_append, List.append_assoc, map_shiftUp_comp]
      have : k' + (j + 1) = k := by omega
      rw [this]

theorem parseFrom_split (s : Src) (k : Nat) (hk : IsBreak s k) :
    parseFrom s = parseFrom (s.take k) ++ (parseFrom (s.drop k)).map (shiftUp k) :=
  parseFrom_split_aux s.length s (Nat.le_refl _) k hk

/-- Tokens are strict, ordered, start at or after `lo` and stop at or before
`hi`. -/
def tokensOk (lo : Nat) : List Tok → Nat → Bool
  | [], hi => decide (lo ≤ hi)
  | t :: ts, hi => decide (lo ≤ t.tkS) && decide (t.tkS < t.tkE) && tokensOk t.tkE ts hi

/-- Leftmost position still available to the lexer. -/
def lexBase (p : Nat) : Option Nat → Nat
  | none => p
  | some s => s

theorem tokensOk_mono_lo : ∀ (ts : List Tok) (lo lo' hi : Nat), lo ≤ lo' →
    tokensOk lo' ts hi = true → tokensOk lo ts hi = true := by
  intro ts
  cases ts with
  | nil =>
    intro lo lo' hi h ht
    simp [tokensOk] at *
    omega
  | cons t ts =>
    intro lo lo' hi h ht
    simp only [tokensOk, Bool.and_eq_true, decide_eq_true_eq] at *
    exact ⟨⟨by omega, ht.1.2⟩, ht.2⟩

theorem tokensOk_mono_hi : ∀ (ts : List Tok) (lo hi hi' : Nat), hi ≤ hi' →
    tokensOk lo ts hi = true → tokensOk lo ts hi' = true := by
  intro ts
  induction ts with
  | nil =>
    intro lo hi hi' h ht
    simp [tokensOk] at *
    omega
  | cons t ts ih =>
    intro lo hi hi' h ht
    simp only [tokensOk, Bool.and_eq_true, decide_eq_true_eq] at *
    exact ⟨ht.1, ih _ _ _ h ht.2⟩

theorem tokensOk_le : ∀ (ts : List Tok) (lo hi : Nat),
    tokensOk lo ts hi = true → lo ≤ hi := by
  intro ts
  induction ts with
  | nil =>
    intro lo hi ht
    simpa [tokensOk] using ht
  | cons t ts ih =>
    intro lo hi ht
    simp only [tokensOk, Bool.and_eq_true, decide_eq_true_eq] at ht
    have := ih _ _ ht.2
    omega

theorem tokensOk_mem : ∀ (ts : List Tok) (lo hi : Nat), tokensOk lo ts hi = true →
    ∀ u ∈ ts, lo ≤ u.tkS ∧ u.tkS < u.tkE ∧ u.tkE ≤ hi := by
  intro ts
  induction ts with
  | nil => intro lo hi _ u hu; exact absurd hu (List.not_mem_nil u)
  | cons t ts ih =>
    intro lo hi ht u hu
    simp only [tokensOk, Bool.and_eq_true, decide_eq_true_eq] at ht
    rcases List.mem_cons.mp hu with rfl | hu'
    · exact ⟨ht.1.1, ht.1.2, by have := tokensOk_le ts u.tkE hi ht.2; omega⟩
    · have := ih _ _ ht.2 u hu'
      exact ⟨by omega, this.2.1, this.2.2⟩

theorem lexGo_ok : ∀ (bs : Src) (p : Nat) (st : Option Nat),
    (∀ s, st = some s → s < p) →
    tokensOk (lexBase p st) (lexGo p st bs) (p + bs.length) = true := by
  intro bs
  induction bs with
  | nil =>
    intro p st hst
    cases st with
    | none => simp [lexGo, lexBase, tokensOk]
    | some s =>
      have := hst s rfl
      simp [lexGo, lexBase, tokensOk]
      omega
  | cons b bs ih =>
    intro p st hst
    have harith : p + (b :: bs).length = (p + 1) + bs.length := by
      simp
      omega
    cases st with
    | none =>
      by_cases hd : isDigit b = true
      · simp only [lexGo, if_pos hd, lexBase, harith]
        have := ih (p + 1) (some p) (by intro s hs; injection hs with h; omega)
        simpa [lexBase] using this
      · have hbody : ∀ sym : Nat,
            tokensOk p (⟨sym, p, p + 1⟩ :: lexGo (p + 1) none bs) ((p + 1) + bs.length)
              = true := by
          intro sym
          have := ih (p + 1) none (by intro s hs; exact Option.noConfusion hs)
          simp only [tokensOk, Bool.and_eq_true, decide_eq_true_eq]
          refine ⟨⟨Nat.le_refl p, by omega⟩, ?_⟩
          simpa [lexBase] using this
        by_cases hp : b = plusB
        · simp only [lexGo, if_neg hd, if_pos hp, lexBase, harith]
          exact hbody plusSym
        · by_cases hsp : b = spaceB
          · simp only [lexGo, if_neg hd, if_neg hp, if_pos hsp, lexBase, harith]
            have := ih (p + 1) none (by intro s hs; exact Option.noConfusion hs)
            simp only [lexBase] at this
            exact tokensOk_mono_lo _ p (p + 1) _ (by omega) this
          · simp only [lexGo, if_neg hd, if_neg hp, if_neg hsp, lexBase, harith]
            exact hbody lexErrSym
    | some s =>
      have hsp2 : s < p := hst s rfl
      by_cases hd : isDigit b = true
      · simp only [lexGo, if_pos hd, lexBase, harith]
        have := ih (p + 1) (some s) (by intro s' hs'; injection hs' with h; omega)
        simpa [lexBase] using this
      · have hnum : ∀ rest : List Tok, tokensOk p rest ((p + 1) + bs.length) = true →
            tokensOk s (⟨numberSym, s, p⟩ :: rest) ((p + 1) + bs.length) = true := by
          intro rest hrest
          simp only [tokensOk, Bool.and_eq_true, decide_eq_true_eq]
          exact ⟨⟨Nat.le_refl s, hsp2⟩, hrest⟩
        have hbody : ∀ sym : Nat,
            tokensOk p (⟨sym, p, p + 1⟩ :: lexGo (p + 1) none bs) ((p + 1) + bs.length)
              = true := by
          intro sym
          have := ih (p + 1) none (by intro s' hs'; exact Option.noConfusion hs')
          simp only [tokensOk, Bool.and_eq_true, decide_eq_true_eq]
          refine ⟨⟨Nat.le_refl p, by omega⟩, ?_⟩
          simpa [lexBase] using this
        by_cases hp : b = plusB
        · simp only [lexGo, if_neg hd, if_pos hp, lexBase, harith]
          exact hnum _ (hbody plusSym)
        · by_cases hsp : b = spaceB
          · simp only [lexGo, if_neg hd, if_neg hp, if_pos hsp, lexBase, harith]
            have := ih (p + 1) none (by intro s' hs'; exact Option.noConfusion hs')
            simp only [lexBase] at this
            exact hnum _ (tokensOk_mono_lo _ p (p + 1) _ (by omega) this)
          · simp only [lexGo, if_neg hd, if_neg hp, if_neg hsp, lexBase, harith]
            exact hnum _ (hbody lexErrSym)

theorem lexLine_ok (l : Src) : tokensOk 0 (lexLine l) l.length = true := by
  have := lexGo_ok l 0 none (by intro s hs; exact Option.noConfusion hs)
  simpa [lexBase, lexLine] using this

theorem shiftUpL_toL (k : Nat) : ∀ ns : NodeList, (shiftUpL k ns).toL = ns.toL.map (shiftUp k)
  | .nil => rfl
  | .cons c cs => by
    rw [shiftUpL, NodeList.toL, NodeList.toL, List.map_cons, shiftUpL_toL k cs]

/-- Sibling ranges are non-overlapping and monotonically increasing: starting
from `lo`, each node begins at or after the previous end and the final end is
at most `hi`. -/
def chainWithin (lo : Nat) : List Node → Nat → Bool
  | [], hi => decide (lo ≤ hi)
  | c :: cs, hi => decide (lo ≤ c.sB) && decide (c.sB ≤ c.eB) && chainWithin c.eB cs hi

mutual
/-- Modelled from the spec's invariants: a node's range is ordered, the
children's ranges are pairwise non-overlapping, monotonically increasing and
contained in the parent's range, recursively at every level. -/
def nodeOkB : Node → Bool
  | .mk a b c cs => decide (b ≤ c) && chainWithin b cs.toL c && nodeOkL cs
/-- Well-rangedness of every node of a child sequence. -/
def nodeOkL : NodeList → Bool
  | .nil => true
  | .cons c cs => nodeOkB c && nodeOkL cs
end

theorem nodeOkL_ofL (l : List Node) : nodeOkL (NodeList.ofL l) = l.all nodeOkB := by
  induction l with
  | nil => rfl
  | cons c cs ih => simp [NodeList.ofL, nodeOkL, ih]

theorem nodeOkB_node (s a b : Nat) (cs : List Node) :
    nodeOkB (node s a b cs) =
      (decide (a ≤ b) && chainWithin a cs b && cs.all nodeOkB) := by
  simp only [node, nodeOkB, NodeList.toL_ofL, nodeOkL_ofL]

theorem nodeOkB_span {n : Node} (h : nodeOkB n = true) : n.sB ≤ n.eB := by
  cases n with
  | mk s a b cs =>
    rw [nodeOkB] at h
    simp only [Bool.and_eq_true, decide_eq_true_eq] at h
    exact h.1.1

theorem nodeOkL_mem : ∀ ns : NodeList, nodeOkL ns = true → ∀ c ∈ ns.toL, nodeOkB c = true
  | .nil => by
    intro _ c hc
    rw [NodeList.toL] at hc
    exact absurd hc (List.not_mem_nil c)
  | .cons d ds => by
    intro h c hc
    rw [nodeOkL, Bool.and_eq_true] at h
    rw [NodeList.toL] at hc
    rcases List.mem_cons.mp hc with rfl | hc'
    · exact h.1
    · exact nodeOkL_mem ds h.2 c hc'

theorem nodeOkB_kids {n : Node} (h : nodeOkB n = true) :
    ∀ c ∈ n.kidsL, nodeOkB c = true := by
  cases n with
  | mk s a b cs =>
    rw [nodeOkB] at h
    simp only [Bool.and_eq_true] at h
    intro c hc
    rw [Node.kidsL] at hc
    exact nodeOkL_mem cs h.2 c hc

theorem nodeOkB_chain {n : Node} (h : nodeOkB n = true) :
    chainWithin n.sB n.kidsL n.eB = true := by
  cases n with
  | mk s a b cs =>
    rw [nodeOkB] at h
    simp only [Bool.and_eq_true] at h
    exact h.1.2

theorem chainWithin_mono : ∀ (cs : List Node) (lo lo' hi hi' : Nat), lo ≤ lo' → hi ≤ hi' →
    chainWithin lo' cs hi = true → chainWithin lo cs hi' = true := by
  intro cs
  induction cs with
  | nil =>
    intro lo lo' hi hi' h1 h2 hc
    simp [chainWithin] at *
    omega
  | cons c cs ih =>
    intro lo lo' hi hi' h1 h2 hc
    simp only [chainWithin, Bool.and_eq_true, decide_eq_true_eq] at *
    exact ⟨⟨by omega, hc.1.2⟩, ih _ _ _ _ (Nat.le_refl _) h2 hc.2⟩

theorem chainWithin_le : ∀ (cs : List Node) (lo hi : Nat),
    chainWithin lo cs hi = true → lo ≤ hi := by
  intro cs
  induction cs with
  | nil =>
    intro lo hi hc
    simpa [chainWithin] using hc
  | cons c cs ih =>
    intro lo hi hc
    simp only [chainWithin, Bool.and_eq_true, decide_eq_true_eq] at hc
    have := ih _ _ hc.2
    omega

theorem chainWithin_append : ∀ (xs : List Node) (ys : List Node) (lo m hi : Nat),
    chainWithin lo xs m = true → chainWithin m ys hi = true →
    chainWithin lo (xs ++ ys) hi = true := by
  intro xs
  induction xs with
  | nil =>
    intro ys lo m hi h1 h2
    simp only [chainWithin, decide_eq_true_eq] at h1
    simpa using chainWithin_mono ys lo m hi hi h1 (Nat.le_refl _) h2
  | cons x xs ih =>
    intro ys lo m hi h1 h2
    simp only [chainWithin, Bool.and_eq_true, decide_eq_true_eq] at h1 ⊢
    exact ⟨h1.1, ih ys _ m hi h1.2 h2⟩

theorem chainWithin_mem : ∀ (cs : List Node) (lo hi : Nat),
    chainWithin lo cs hi = true → ∀ c ∈ cs, lo ≤ c.sB ∧ c.sB ≤ c.eB ∧ c.eB ≤ hi := by
  intro cs
  induction cs with
  | nil => intro lo hi _ c hc; exact absurd hc (List.not_mem_nil c)
  | cons d ds ih =>
    intro lo hi hc c hcm
    simp only [chainWithin, Bool.and_eq_true, decide_eq_true_eq] at hc
    rcases List.mem_cons.mp hcm with rfl | hcm'
    · exact ⟨hc.1.1, hc.1.2, chainWithin_le ds _ _ hc.2⟩
    · have := ih _ _ hc.2 c hcm'
      omega

theorem chainWithin_shift_eq : ∀ (cs : List Node) (lo hi k : Nat),
    chainWithin (lo + k) (cs.map (shiftUp k)) (hi + k) = chainWithin lo cs hi := by
  intro cs
  induction cs with
  | nil =>
    intro lo hi k
    simp only [List.map_nil, chainWithin]
    exact decide_eq_decide.mpr ⟨fun h => by omega, fun h => by omega⟩
  | cons c cs ih =>
    intro lo hi k
    simp only [List.map_cons, chainWithin, sB_shiftUp, eB_shiftUp]
    have e1 : decide (lo + k ≤ c.sB + k) = decide (lo ≤ c.sB) :=
      decide_eq_decide.mpr ⟨fun h => by omega, fun h => by omega⟩
    have e2 : decide (c.sB + k ≤ c.eB + k) = decide (c.sB ≤ c.eB) :=
      decide_eq_decide.mpr ⟨fun h => by omega, fun h => by omega⟩
    rw [e1, e2, ih c.eB hi k]

theorem chainWithin_shift (cs : List Node) (lo hi k : Nat)
    (hc : chainWithin lo cs hi = true) :
    chainWithin (lo + k) (cs.map (shiftUp k)) (hi + k) = true := by
  rw [chainWithin_shift_eq]
  exact hc

mutual
theorem nodeOkB_shiftUp (k : Nat) : ∀ n, nodeOkB (shiftUp k n) = nodeOkB n
  | .mk s a b cs => by
    rw [shiftUp, nodeOkB, nodeOkB, nodeOkL_shiftUpL k cs, shiftUpL_toL, chainWithin_shift_eq]
    have e1 : decide (a + k ≤ b + k) = decide (a ≤ b) :=
      decide_eq_decide.mpr ⟨fun h => by omega, fun h => by omega⟩
    rw [e1]
theorem nodeOkL_shiftUpL (k : Nat) : ∀ ns, nodeOkL (shiftUpL k ns) = nodeOkL ns
  | .nil => rfl
  | .cons c cs => by
    rw [shiftUpL, nodeOkL, nodeOkL, nodeOkB_shiftUp k c, nodeOkL_shiftUpL k cs]
end

@[simp] theorem sB_tokLeaf (t : Tok) : (tokLeaf t).sB = t.tkS := rfl

@[simp] theorem eB_tokLeaf (t : Tok) : (tokLeaf t).eB = t.tkE := rfl

@[simp] theorem symN_tokLeaf (t : Tok) : (tokLeaf t).symN = t.sym := rfl

theorem tokLeaf_ok {t : Tok} (h : t.tkS ≤ t.tkE) : nodeOkB (tokLeaf t) = true := by
  rw [tokLeaf, nodeOkB_node]
  simp [chainWithin, h]

theorem lastStop_ok : ∀ (ts : List Tok) (t : Tok) (hi : Nat), tokensOk t.tkE ts hi = true →
    chainWithin t.tkE (ts.map tokLeaf) (lastStop t ts) = true ∧
    t.tkE ≤ lastStop t ts ∧ lastStop t ts ≤ hi := by
  intro ts
  induction ts with
  | nil =>
    intro t hi h
    simp only [tokensOk, decide_eq_true_eq] at h
    simp [lastStop, chainWithin, h]
  | cons u us ih =>
    intro t hi h
    simp only [tokensOk, Bool.and_eq_true, decide_eq_true_eq] at h
    obtain ⟨⟨h1, h2⟩, h3⟩ := h
    obtain ⟨c1, c2, c3⟩ := ih u hi h3
    refine ⟨?_, ?_, ?_⟩
    · rw [lastStop]
      simp only [List.map_cons, chainWithin, sB_tokLeaf, eB_tokLeaf]
      simp only [Bool.and_eq_true, decide_eq_true_eq]
      exact ⟨⟨h1, by omega⟩, c1⟩
    · rw [lastStop]; omega
    · rw [lastStop]; exact c3

theorem errNode_ok {t : Tok} {ts : List Tok} {hi : Nat}
    (hst : t.tkS < t.tkE) (h : tokensOk t.tkE ts hi = true) :
    nodeOkB (errNode t ts) = true ∧ (errNode t ts).sB = t.tkS ∧
    (errNode t ts).eB = lastStop t ts ∧ t.tkS < lastStop t ts ∧ lastStop t ts ≤ hi := by
  obtain ⟨c1, c2, c3⟩ := lastStop_ok ts t hi h
  refine ⟨?_, rfl, rfl, by omega, c3⟩
  rw [errNode, nodeOkB_node]
  simp only [Bool.and_eq_true, decide_eq_true_eq]
  refine ⟨⟨by omega, ?_⟩, ?_⟩
  · simp only [List.map_cons, chainWithin, sB_tokLeaf, eB_tokLeaf]
    simp only [Bool.and_eq_true, decide_eq_true_eq]
    exact ⟨⟨Nat.le_refl _, by omega⟩, c1⟩
  · rw [List.all_eq_true]
    intro x hx
    rw [List.mem_map] at hx
    obtain ⟨u, hu, rfl⟩ := hx
    rcases List.mem_cons.mp hu with rfl | hu'
    · exact tokLeaf_ok (by omega)
    · have := tokensOk_mem ts t.tkE hi h u hu'
      exact tokLeaf_ok (by omega)

theorem binErrNode_ok {acc e : Node} (hacc : nodeOkB acc = true) (he : nodeOkB e = true)
    (hle : acc.eB ≤ e.sB) :
    nodeOkB (binErrNode acc e) = true := by
  have h1 := nodeOkB_span hacc
  have h2 := nodeOkB_span he
  rw [binErrNode, nodeOkB_node]
  simp only [Bool.and_eq_true, decide_eq_true_eq]
  refine ⟨⟨by omega, ?_⟩, ?_⟩
  · simp only [chainWithin, Bool.and_eq_true, decide_eq_true_eq]
    omega
  · simp only [List.all_cons, List.all_nil, Bool.and_eq_true]
    exact ⟨hacc, he, trivial⟩

theorem parseExprLoop_ok_aux : ∀ (n : Nat) (ts : List Tok), ts.length ≤ n →
    ∀ (acc : Node) (hi : Nat),
    nodeOkB acc = true → tokensOk acc.eB ts hi = true →
    nodeOkB (parseExprLoop acc ts).1 = true ∧
    (parseExprLoop acc ts).1.sB = acc.sB ∧
    acc.eB ≤ (parseExprLoop acc ts).1.eB ∧
    tokensOk (parseExprLoop acc ts).1.eB (parseExprLoop acc ts).2 hi = true := by
  intro n
  induction n with
  | zero =>
    intro ts hlen acc hi hacc ht
    have : ts = [] := List.eq_nil_of_length_eq_zero (by omega)
    subst this
    rw [parseExprLoop]
    exact ⟨hacc, rfl, Nat.le_refl _, ht⟩
  | succ n ih =>
  intro ts hlen acc hi hacc ht
  match ts with
  | [] =>
    rw [parseExprLoop]
    exact ⟨hacc, rfl, Nat.le_refl _, ht⟩
  | [t] =>
    rw [parseExprLoop]
    simp only [tokensOk, Bool.and_eq_true, decide_eq_true_eq] at ht
    obtain ⟨⟨h1, h2⟩, h3⟩ := ht
    by_cases hp : t.sym = plusSym
    · rw [if_pos hp]
      have herr := @errNode_ok t [] hi h2 (by
        simp only [tokensOk, decide_eq_true_eq]
        exact h3)
      refine ⟨binErrNode_ok hacc herr.1 (by omega), rfl, ?_, ?_⟩
      · simp only [binErrNode, eB_node]
        rw [herr.2.2.1]
        omega
      · simp only [binErrNode, eB_node, tokensOk, decide_eq_true_eq]
        rw [herr.2.2.1]
        exact herr.2.2.2.2
    · rw [if_neg hp]
      refine ⟨hacc, rfl, Nat.le_refl _, ?_⟩
      simp only [tokensOk, Bool.and_eq_true, decide_eq_true_eq]
      exact ⟨⟨h1, h2⟩, h3⟩
  | t :: u :: ts =>
    rw [parseExprLoop]
    simp only [tokensOk, Bool.and_eq_true, decide_eq_true_eq] at ht
    obtain ⟨⟨h1, h2⟩, ⟨h3, h4⟩, h5⟩ := ht
    have haccs := nodeOkB_span hacc
    by_cases hp : t.sym = plusSym
    · rw [if_pos hp]
      by_cases hu : u.sym = numberSym
      · rw [if_pos hu]
        have hbin : nodeOkB (binNode acc t u) = true := by
          rw [binNode, nodeOkB_node]
          simp only [Bool.and_eq_true, decide_eq_true_eq]
          refine ⟨⟨by omega, ?_⟩, ?_⟩
          · simp only [chainWithin, Bool.and_eq_true, decide_eq_true_eq,
              sB_tokLeaf, eB_tokLeaf]
            omega
          · simp only [List.all_cons, List.all_nil, Bool.and_eq_true]
            exact ⟨hacc, tokLeaf_ok (Nat.le_of_lt h2), tokLeaf_ok (Nat.le_of_lt h4), trivial⟩
        have hbe : (binNode acc t u).eB = u.tkE := rfl
        have hbs : (binNode acc t u).sB = acc.sB := rfl
        have := ih ts (by simp at hlen; omega) (binNode acc t u) hi hbin (hbe ▸ h5)
        refine ⟨this.1, ?_, ?_, this.2.2.2⟩
        · rw [this.2.1, hbs]
        · rw [hbe] at this
          omega
      · rw [if_neg hu]
        have herr := @errNode_ok t (u :: ts) hi h2 (by
          simp only [tokensOk, Bool.and_eq_true, decide_eq_true_eq]
          exact ⟨⟨h3, h4⟩, h5⟩)
        refine ⟨binErrNode_ok hacc herr.1 (by omega), rfl, ?_, ?_⟩
        · simp only [binErrNode, eB_node]
          rw [herr.2.2.1]
          omega
        · simp only [binErrNode, eB_node, tokensOk, decide_eq_true_eq]
          rw [herr.2.2.1]
          exact herr.2.2.2.2
    · rw [if_neg hp]
      refine ⟨hacc, rfl, Nat.le_refl _, ?_⟩
      simp only [tokensOk, Bool.and_eq_true, decide_eq_true_eq]
      exact ⟨⟨h1, h2⟩, ⟨h3, h4⟩, h5⟩

theorem parseExprLoop_ok (ts : List Tok) (acc : Node) (hi : Nat)
    (hacc : nodeOkB acc = true) (ht : tokensOk acc.eB ts hi = true) :
    nodeOkB (parseExprLoop acc ts).1 = true ∧
    (parseExprLoop acc ts).1.sB = acc.sB ∧
    acc.eB ≤ (parseExprLoop acc ts).1.eB ∧
    tokensOk (parseExprLoop acc ts).1.eB (parseExprLoop acc ts).2 hi = true :=
  parseExprLoop_ok_aux ts.length ts (Nat.le_refl _) acc hi hacc ht

theorem parseLineRel_ok (l : Src) :
    (∀ n ∈ parseLineRel l, nodeOkB n = true ∧ n.sB < n.eB) ∧
    chainWithin 0 (parseLineRel l) l.length = true := by
  have hlex := lexLine_ok l
  cases hlx : lexLine l with
  | nil =>
    rw [hlx] at hlex
    simp only [tokensOk, decide_eq_true_eq] at hlex
    constructor
    · intro n hn
      simp [parseLineRel, hlx] at hn
    · simp only [parseLineRel, hlx, chainWithin, decide_eq_true_eq]
      simpa using hlex
  | cons t ts =>
    rw [hlx] at hlex
    simp only [tokensOk, Bool.and_eq_true, decide_eq_true_eq] at hlex
    obtain ⟨⟨h1, h2⟩, h3⟩ := hlex
    by_cases hts : t.sym = numberSym
    · have hleaf : nodeOkB (tokLeaf t) = true := tokLeaf_ok (Nat.le_of_lt h2)
      have hloop := parseExprLoop_ok ts (tokLeaf t) l.length hleaf
        (by rw [eB_tokLeaf]; exact h3)
      rcases hpr : parseExprLoop (tokLeaf t) ts with ⟨e, rest⟩
      rw [hpr] at hloop
      simp only at hloop
      obtain ⟨he, hes, hee, hrt⟩ := hloop
      rw [sB_tokLeaf] at hes
      rw [eB_tokLeaf] at hee
      have hstrict : e.sB < e.eB := by rw [hes]; omega
      cases rest with
      | nil =>
        have hout : parseLineRel l = [e] := by
          simp only [parseLineRel, hlx, if_pos hts, hpr]
        simp only [tokensOk, decide_eq_true_eq] at hrt
        rw [hout]
        constructor
        · intro n hn
          rcases List.mem_cons.mp hn with rfl | hn'
          · exact ⟨he, hstrict⟩
          · exact absurd hn' (List.not_mem_nil n)
        · simp only [chainWithin, Bool.and_eq_true, decide_eq_true_eq]
          omega
      | cons r rs =>
        have hout : parseLineRel l = [e, errNode r rs] := by
          simp only [parseLineRel, hlx, if_pos hts, hpr]
        simp only [tokensOk, Bool.and_eq_true, decide_eq_true_eq] at hrt
        obtain ⟨⟨g1, g2⟩, g3⟩ := hrt
        have herr := @errNode_ok r rs l.length g2 g3
        obtain ⟨herr1, herr2, herr3, herr4, herr5⟩ := herr
        rw [hout]
        constructor
        · intro n hn
          rcases List.mem_cons.mp hn with rfl | hn'
          · exact ⟨he, hstrict⟩
          rcases List.mem_cons.mp hn' with rfl | hn''
          · exact ⟨herr1, by rw [herr2, herr3]; omega⟩
          · exact absurd hn'' (List.not_mem_nil n)
        · simp only [chainWithin, Bool.and_eq_true, decide_eq_true_eq, herr2, herr3]
          omega
    · have hout : parseLineRel l = [errNode t ts] := by
        simp only [parseLineRel, hlx, if_neg hts]
      have herr := @errNode_ok t ts l.length h2 h3
      obtain ⟨herr1, herr2, herr3, herr4, herr5⟩ := herr
      rw [hout]
      constructor
      · intro n hn
        rcases List.mem_cons.mp hn with rfl | hn'
        · exact ⟨herr1, by rw [herr2, herr3]; omega⟩
        · exact absurd hn' (List.not_mem_nil n)
      · simp only [chainWithin, Bool.and_eq_true, decide_eq_true_eq, herr2, herr3]
        omega

theorem parseFrom_ok_aux : ∀ (n : Nat) (s : Src), s.length ≤ n →
    (∀ c ∈ parseFrom s, nodeOkB c = true ∧ c.sB < c.eB) ∧
    chainWithin 0 (parseFrom s) s.length = true := by
  intro n
  induction n with
  | zero =>
    intro s hs
    have : s = [] := List.eq_nil_of_length_eq_zero (by omega)
    subst this
    rw [parseFrom_nil]
    constructor
    · intro c hc; exact absurd hc (List.not_mem_nil c)
    · simp [chainWithin]
  | succ n ih =>
  intro s hn
  set L := s.takeWhile notNl with hL
  set R := s.dropWhile notNl with hR
  have hsplit : L ++ R = s := List.takeWhile_append_dropWhile notNl s
  have hlineok := parseLineRel_ok L
  cases hrs : R with
  | nil =>
    have hsL : s = L := by rw [← hsplit, hrs, List.append_nil]
    have hpf : parseFrom s = parseLineRel L := by
      rw [parseFrom_unfold s, ← hL, ← hR, hrs, List.append_nil]
    rw [hpf, hsL]
    exact hlineok
  | cons r s' =>
    have hpf : parseFrom s = parseLineRel L ++ (parseFrom s').map (shiftUp (L.length + 1)) := by
      rw [parseFrom_unfold s, ← hL, ← hR, hrs]
    have hlen : s.length = L.length + 1 + s'.length := by
      have := congrArg List.length hsplit
      rw [hrs] at this
      simp at this
      omega
    have ihs' := ih s' (by omega)
    rw [hpf]
    constructor
    · intro c hc
      rcases List.mem_append.mp hc with hc1 | hc2
      · exact hlineok.1 c hc1
      · rw [List.mem_map] at hc2
        obtain ⟨c0, hc0, rfl⟩ := hc2
        have := ihs'.1 c0 hc0
        refine ⟨by rw [nodeOkB_shiftUp]; exact this.1, ?_⟩
        rw [sB_shiftUp, eB_shiftUp]
        omega
    · have hchain1 : chainWithin 0 (parseLineRel L) (L.length + 1) = true :=
        chainWithin_mono _ 0 0 L.length (L.length + 1) (Nat.le_refl _) (by omega) hlineok.2
      have hchain2 : chainWithin (L.length + 1)
          ((parseFrom s').map (shiftUp (L.length + 1))) (s'.length + (L.length + 1)) = true := by
        have := chainWithin_shift (parseFrom s') 0 s'.length (L.length + 1) ihs'.2
        rwa [Nat.zero_add] at this
      have := chainWithin_append (parseLineRel L) _ 0 (L.length + 1) _ hchain1 hchain2
      have harith : s'.length + (L.length + 1) = s.length := by omega
      rwa [harith] at this

theorem parseFrom_ok (s : Src) :
    (∀ c ∈ parseFrom s, nodeOkB c = true ∧ c.sB < c.eB) ∧
    chainWithin 0 (parseFrom s) s.length = true :=
  parseFrom_ok_aux s.length s (Nat.le_refl _)

theorem parseFrom_mem_bounds (s : Src) (c : Node) (hc : c ∈ parseFrom s) :
    c.sB < c.eB ∧ c.eB ≤ s.length := by
  obtain ⟨hok, hchain⟩ := parseFrom_ok s
  have h1 := (hok c hc).2
  have h2 := chainWithin_mem (parseFrom s) 0 s.length hchain c hc
  exact ⟨h1, h2.2.2⟩

theorem parse_ok (s : Src) : nodeOkB (parse s) = true := by
  rw [parse, nodeOkB_node]
  simp only [Bool.and_eq_true, decide_eq_true_eq]
  obtain ⟨hok, hchain⟩ := parseFrom_ok s
  refine ⟨⟨by omega, hchain⟩, ?_⟩
  rw [List.all_eq_true]
  intro c hc
  exact (hok c hc).1

/-- Correctness statement of an edit summary relative to the original text
`orig` and the current text `t`: the prefix below `lo` and the suffix from
`hiCur` (current) respectively `oldHi` (original) are untouched. -/
def summInv (orig t : Src) (σ : EditSummary) : Prop :=
  σ.lo ≤ t.length ∧ σ.lo ≤ orig.length ∧ σ.hiCur ≤ t.length ∧ σ.oldHi ≤ orig.length ∧
  t.take σ.lo = orig.take σ.lo ∧ t.drop σ.hiCur = orig.drop σ.oldHi

theorem summInv_init (orig : Src) : summInv orig orig ⟨orig.length, 0, 0⟩ := by
  refine ⟨Nat.le_refl _, Nat.le_refl _, Nat.zero_le _, Nat.zero_le _, rfl, rfl⟩

theorem summInv_step {orig t t' : Src} {σ : EditSummary} {e : InputEdit}
    (hinv : summInv orig t σ) (he : editStep t e t') :
    summInv orig t' (summStep σ e) := by
  obtain ⟨i1, i2, i3, i4, i5, i6⟩ := hinv
  obtain ⟨e1, e2, e3, e4, e5, e6, e7⟩ := he
  have hlen : t.length - σ.hiCur = orig.length - σ.oldHi := by
    have := congrArg List.length i6
    simp at this
    omega
  rw [summStep]
  refine ⟨?_, ?_, ?_, ?_, ?_, ?_⟩
  · simp only
    omega
  · simp only
    omega
  · simp only
    omega
  · simp only
    omega
  · simp only
    have hmin : min σ.lo e.startByte ≤ e.startByte := by omega
    have g1 := congrArg (List.take (min σ.lo e.startByte)) e6
    rw [List.take_take, List.take_take] at g1
    have hm : min (min σ.lo e.startByte) e.startByte = min σ.lo e.startByte := by omega
    rw [hm] at g1
    have g2 := congrArg (List.take (min σ.lo e.startByte)) i5
    rw [List.take_take, List.take_take] at g2
    have hm2 : min (min σ.lo e.startByte) σ.lo = min σ.lo e.startByte := by omega
    rw [hm2] at g2
    exact g1.trans g2
  · simp only
    by_cases hoe : e.oldEndByte ≤ σ.hiCur
    · have ha1 : e.newEndByte + (σ.hiCur - e.oldEndByte) =
          e.newEndByte + (σ.hiCur - e.oldEndByte) := rfl
      have g1 := congrArg (List.drop (σ.hiCur - e.oldEndByte)) e7
      rw [List.drop_drop, List.drop_drop] at g1
      have hm : e.oldEndByte + (σ.hiCur - e.oldEndByte) = σ.hiCur := by omega
      rw [hm] at g1
      have hm2 : σ.oldHi + (e.oldEndByte - σ.hiCur) = σ.oldHi := by omega
      rw [hm2, g1, i6]
    · push_neg at hoe
      have hm : e.newEndByte + (σ.hiCur - e.oldEndByte) = e.newEndByte := by omega
      rw [hm, e7]
      have g1 := congrArg (List.drop (e.oldEndByte - σ.hiCur)) i6
      rw [List.drop_drop, List.drop_drop] at g1
      have hm2 : σ.hiCur + (e.oldEndByte - σ.hiCur) = e.oldEndByte := by omega
      rw [hm2] at g1
      exact g1

theorem summInv_script : ∀ (es : List InputEdit) (orig t final : Src) (σ : EditSummary),
    summInv orig t σ → EditScript t es final →
    summInv orig final (es.foldl summStep σ) := by
  intro es
  induction es with
  | nil =>
    intro orig t final σ hinv hs
    rw [EditScript] at hs
    subst hs
    exact hinv
  | cons e es ih =>
    intro orig t final σ hinv hs
    rw [EditScript] at hs
    obtain ⟨t', hstep, hrest⟩ := hs
    rw [List.foldl_cons]
    exact ih orig t' final (summStep σ e) (summInv_step hinv hstep) hrest

theorem summOf_inv {orig final : Src} {es : List InputEdit}
    (h : EditScript orig es final) :
    summInv orig final (summOf orig.length es) :=
  summInv_script es orig orig final ⟨orig.length, 0, 0⟩ (summInv_init orig) h

theorem lastBoundary_le : ∀ u : Src, lastBoundary u ≤ u.length := by
  intro u
  induction u with
  | nil => simp [lastBoundary]
  | cons b bs ih =>
    rw [lastBoundary]
    by_cases hr : lastBoundary bs = 0
    · rw [if_pos hr]
      by_cases hb : b = nlB
      · rw [if_pos hb]; simp
      · rw [if_neg hb]; simp
    · rw [if_neg hr]
      simp
      omega

theorem lastBoundary_break : ∀ u : Src,
    lastBoundary u = 0 ∨ u[lastBoundary u - 1]? = some nlB := by
  intro u
  induction u with
  | nil => left; rfl
  | cons b bs ih =>
    rw [lastBoundary]
    by_cases hr : lastBoundary bs = 0
    · rw [if_pos hr]
      by_cases hb : b = nlB
      · rw [if_pos hb]
        right
        simp [hb]
      · rw [if_neg hb]
        left
        rfl
    · rw [if_neg hr]
      right
      rcases ih with h0 | hnl
      · exact absurd h0 hr
      · have h1 : lastBoundary bs - 1 + 1 = lastBoundary bs := by omega
        rw [Nat.add_sub_cancel]
        rw [← h1, List.getElem?_cons_succ]
        exact hnl

theorem nlSearch_some : ∀ (u : Src) (q : Nat), nlSearch u = some q → u[q]? = some nlB := by
  intro u
  induction u with
  | nil => intro q h; exact Option.noConfusion h
  | cons b bs ih =>
    intro q h
    rw [nlSearch] at h
    by_cases hb : b = nlB
    · rw [if_pos hb] at h
      injection h with h1
      subst h1
      simp [hb]
    · rw [if_neg hb] at h
      cases hq : nlSearch bs with
      | none => rw [hq] at h; simp at h
      | some q0 =>
        rw [hq] at h
        simp at h
        subst h
        rw [List.getElem?_cons_succ]
        exact ih q0 hq

theorem breakAfter_spec (s : Src) (p : Nat) (hp : p ≤ s.length) :
    p ≤ breakAfter s p ∧ breakAfter s p ≤ s.length ∧ IsBreak s (breakAfter s p) := by
  cases hq : nlSearch (s.drop p) with
  | none =>
    have hb : breakAfter s p = s.length := by rw [breakAfter, hq]
    rw [hb]
    exact ⟨hp, Nat.le_refl _, Or.inr (Or.inl (Nat.le_refl _))⟩
  | some q =>
    have hb : breakAfter s p = p + q + 1 := by rw [breakAfter, hq]
    have hnl := nlSearch_some _ q hq
    rw [List.getElem?_drop] at hnl
    have hlt : p + q < s.length := (List.getElem?_eq_some_iff.mp hnl).1
    rw [hb]
    refine ⟨by omega, by omega, Or.inr (Or.inr ?_)⟩
    have h2 : p + q + 1 - 1 = p + q := by omega
    rw [h2]
    exact hnl

theorem parse_kidsL (s : Src) : (parse s).kidsL = parseFrom s := by
  rw [parse, kidsL_node]

theorem increparse_eq_parse (oldSrc : Src) (edits : List InputEdit) (newSrc : Src)
    (h : EditScript oldSrc edits newSrc) :
    incrementalParse (parse oldSrc) edits newSrc = parse newSrc := by
  have hinv := summOf_inv h
  obtain ⟨i1, i2, i3, i4, i5, i6⟩ := hinv
  set σ := summOf oldSrc.length edits with hσ
  set b1 := lastBoundary (newSrc.take (min σ.lo newSrc.length)) with hb1def
  set bA := breakAfter newSrc σ.hiCur with hbAdef
  set b2 := max b1 bA with hb2def
  set oldB2 := σ.oldHi + (b2 - σ.hiCur) with holdB2
  have hstep : incrementalParse (parse oldSrc) edits newSrc =
      node rootSym 0 newSrc.length
        ((parse oldSrc).kidsL.filter (fun c => decide (c.sB < b1)) ++
         (parseFrom ((newSrc.drop b1).take (b2 - b1))).map (shiftUp b1) ++
         ((parse oldSrc).kidsL.filter (fun c => decide (oldB2 ≤ c.sB))).map
           (moveNode oldB2 b2)) := rfl
  -- basic bounds on the window
  have hb1le : b1 ≤ σ.lo := by
    have h1 := lastBoundary_le (newSrc.take (min σ.lo newSrc.length))
    rw [List.length_take] at h1
    rw [hb1def]
    omega
  have hb1lenew : b1 ≤ newSrc.length := by omega
  have hb1leold : b1 ≤ oldSrc.length := by omega
  obtain ⟨g1, g2, g3⟩ := breakAfter_spec newSrc σ.hiCur i3
  have hhcb2 : σ.hiCur ≤ b2 := by
    rw [hb2def]
    have : bA ≤ max b1 bA := Nat.le_max_right b1 bA
    omega
  have hb1b2 : b1 ≤ b2 := by
    rw [hb2def]
    exact Nat.le_max_left b1 bA
  have hb2lenew : b2 ≤ newSrc.length := by
    rw [hb2def]
    have := Nat.max_le.mpr ⟨hb1lenew, g2⟩
    omega
  -- b1 is a line break of both texts
  have hb1brkN : IsBreak newSrc b1 := by
    by_cases hz : b1 = 0
    · exact Or.inl hz
    rcases lastBoundary_break (newSrc.take (min σ.lo newSrc.length)) with h0 | hnl
    · rw [← hb1def] at h0
      exact absurd h0 hz
    · rw [← hb1def] at hnl
      right; right
      have hlt : b1 - 1 < min σ.lo newSrc.length := by
        have h1 := lastBoundary_le (newSrc.take (min σ.lo newSrc.length))
        rw [List.length_take] at h1
        rw [← hb1def] at h1
        omega
      rwa [List.getElem?_take_of_lt hlt] at hnl
  have hb1brkO : IsBreak oldSrc b1 := by
    by_cases hz : b1 = 0
    · exact Or.inl hz
    rcases lastBoundary_break (newSrc.take (min σ.lo newSrc.length)) with h0 | hnl
    · rw [← hb1def] at h0
      exact absurd h0 hz
    · rw [← hb1def] at hnl
      right; right
      have hlt : b1 - 1 < min σ.lo newSrc.length := by
        have h1 := lastBoundary_le (newSrc.take (min σ.lo newSrc.length))
        rw [List.length_take] at h1
        rw [← hb1def] at h1
        omega
      rw [List.getElem?_take_of_lt hlt] at hnl
      have hlt2 : b1 - 1 < σ.lo := by omega
      have e1 : (newSrc.take σ.lo)[b1 - 1]? = (oldSrc.take σ.lo)[b1 - 1]? := by rw [i5]
      rw [List.getElem?_take_of_lt hlt2, List.getElem?_take_of_lt hlt2] at e1
      rw [← e1]
      exact hnl
  have htakeb1 : newSrc.take b1 = oldSrc.take b1 := by
    have e1 := congrArg (List.take b1) i5
    rw [List.take_take, List.take_take] at e1
    have hm : min b1 σ.lo = b1 := by omega
    rwa [hm] at e1
  -- the suffix boundary seen from both texts
  have hdropb2 : newSrc.drop b2 = oldSrc.drop oldB2 := by
    have e1 := congrArg (List.drop (b2 - σ.hiCur)) i6
    rw [List.drop_drop, List.drop_drop] at e1
    have hm : σ.hiCur + (b2 - σ.hiCur) = b2 := by omega
    rw [hm] at e1
    rw [holdB2]
    exact e1
  have hb2brkN : IsBreak newSrc b2 := by
    rcases Nat.le_total bA b1 with hmx | hmx
    · have : b2 = b1 := by rw [hb2def]; omega
      rw [this]
      exact hb1brkN
    · have : b2 = bA := by rw [hb2def]; omega
      rw [this]
      exact g3
  have hbrkO2 : IsBreak oldSrc oldB2 := by
    by_cases hL : oldSrc.length ≤ oldB2
    · exact Or.inr (Or.inl hL)
    push_neg at hL
    have hne : oldSrc.drop oldB2 ≠ [] := by
      intro hcon
      have := congrArg List.length hcon
      simp at this
      omega
    have hb2lt : b2 < newSrc.length := by
      by_contra hcon
      push_neg at hcon
      have : newSrc.drop b2 = [] := List.drop_eq_nil_of_le (by omega)
      rw [hdropb2] at this
      exact hne this
    have hb2gt : σ.hiCur < b2 := by
      by_contra hcon
      push_neg at hcon
      have hEqA : bA = σ.hiCur := by
        have : bA ≤ max b1 bA := Nat.le_max_right b1 bA
        rw [← hb2def] at this
        omega
      have : σ.hiCur < bA ∨ bA = newSrc.length := by
        cases hq : nlSearch (newSrc.drop σ.hiCur) with
        | none =>
          right
          rw [hbAdef, breakAfter, hq]
        | some q =>
          left
          have hA2 : bA = σ.hiCur + q + 1 := by rw [hbAdef, breakAfter, hq]
          omega
      rcases this with hgt | hA
      · omega
      · rw [hA] at hEqA
        omega
    right; right
    have hidx : oldB2 - 1 = σ.oldHi + (b2 - σ.hiCur - 1) := by rw [holdB2]; omega
    have e1 : (oldSrc.drop σ.oldHi)[b2 - σ.hiCur - 1]? =
        oldSrc[σ.oldHi + (b2 - σ.hiCur - 1)]? := List.getElem?_drop _ _ _
    have e2 : (newSrc.drop σ.hiCur)[b2 - σ.hiCur - 1]? =
        newSrc[σ.hiCur + (b2 - σ.hiCur - 1)]? := List.getElem?_drop _ _ _
    have hm : σ.hiCur + (b2 - σ.hiCur - 1) = b2 - 1 := by omega
    rw [hm] at e2
    have hb2nl : newSrc[b2 - 1]? = some nlB := by
      rcases hb2brkN with h0 | hlen | hnl
      · omega
      · omega
      · exact hnl
    rw [hidx, ← e1, ← i6, e2, hb2nl]
  -- the splits of the two parses
  have hsplO1 := parseFrom_split oldSrc b1 hb1brkO
  have hsplO2 := parseFrom_split oldSrc oldB2 hbrkO2
  have hsplN1 := parseFrom_split newSrc b1 hb1brkN
  have hbrkD : IsBreak (newSrc.drop b1) (b2 - b1) := by
    by_cases hz : b2 - b1 = 0
    · exact Or.inl hz
    by_cases hlen : (newSrc.drop b1).length ≤ b2 - b1
    · exact Or.inr (Or.inl hlen)
    push_neg at hlen
    rw [List.length_drop] at hlen
    right; right
    have e1 : (newSrc.drop b1)[b2 - b1 - 1]? = newSrc[b1 + (b2 - b1 - 1)]? :=
      List.getElem?_drop _ _ _
    have hm : b1 + (b2 - b1 - 1) = b2 - 1 := by omega
    rw [e1, hm]
    rcases hb2brkN with h0 | hl | hnl
    · omega
    · omega
    · exact hnl
  have hsplN2 := parseFrom_split (newSrc.drop b1) (b2 - b1) hbrkD
  -- the engine's reused prefix is exactly the prefix of the fresh parse
  have hpre : (parseFrom oldSrc).filter (fun c => decide (c.sB < b1)) =
      parseFrom (oldSrc.take b1) := by
    rw [hsplO1, List.filter_append]
    have h1 : (parseFrom (oldSrc.take b1)).filter (fun c => decide (c.sB < b1)) =
        parseFrom (oldSrc.take b1) := by
      rw [List.filter_eq_self]
      intro c hc
      have := parseFrom_mem_bounds _ c hc
      rw [List.length_take] at this
      simp only [decide_eq_true_eq]
      omega
    have h2 : ((parseFrom (oldSrc.drop b1)).map (shiftUp b1)).filter
        (fun c => decide (c.sB < b1)) = [] := by
      rw [List.filter_eq_nil_iff]
      intro c hc
      rw [List.mem_map] at hc
      obtain ⟨c0, _, rfl⟩ := hc
      rw [sB_shiftUp]
      simp only [decide_eq_true_eq]
      omega
    rw [h1, h2, List.append_nil]
  -- the engine's reused suffix is the shifted suffix of the old parse
  have hsuf : (parseFrom oldSrc).filter (fun c => decide (oldB2 ≤ c.sB)) =
      (parseFrom (oldSrc.drop oldB2)).map (shiftUp oldB2) := by
    rw [hsplO2, List.filter_append]
    have h1 : (parseFrom (oldSrc.take oldB2)).filter (fun c => decide (oldB2 ≤ c.sB)) =
        [] := by
      rw [List.filter_eq_nil_iff]
      intro c hc
      have := parseFrom_mem_bounds _ c hc
      rw [List.length_take] at this
      simp only [decide_eq_true_eq]
      omega
    have h2 : ((parseFrom (oldSrc.drop oldB2)).map (shiftUp oldB2)).filter
        (fun c => decide (oldB2 ≤ c.sB)) =
        (parseFrom (oldSrc.drop oldB2)).map (shiftUp oldB2) := by
      rw [List.filter_eq_self]
      intro c hc
      rw [List.mem_map] at hc
      obtain ⟨c0, _, rfl⟩ := hc
      rw [sB_shiftUp]
      simp only [decide_eq_true_eq]
      omega
    rw [h1, h2, List.nil_append]
  -- assemble both sides
  rw [hstep, parse_kidsL, hpre, hsuf, ← htakeb1, ← hdropb2]
  have hsufEq : ((parseFrom (newSrc.drop b2)).map (shiftUp oldB2)).map (moveNode oldB2 b2) =
      (parseFrom (newSrc.drop b2)).map (shiftUp b2) := by
    rw [List.map_map]
    exact List.map_congr_left fun c _ => moveNode_shiftUp oldB2 b2 c
  rw [hsufEq]
  conv_rhs => rw [parse]
  rw [hsplN1, hsplN2, List.map_append, map_shiftUp_comp]
  have harith : b2 - b1 + b1 = b2 := by omega
  rw [harith, List.drop_drop]
  have harith2 : b1 + (b2 - b1) = b2 := by omega
  rw [harith2, List.append_assoc]

theorem hasErr_tokLeaf (t : Tok) : hasErr (tokLeaf t) = (t.sym == errorSym) := by
  rw [tokLeaf, hasErr_node]
  simp

theorem hasErr_errNode (t : Tok) (ts : List Tok) : hasErr (errNode t ts) = true := by
  rw [errNode, hasErr_node]
  simp

theorem hasErr_binNode (acc : Node) (t u : Tok) (ht : t.sym = plusSym)
    (hu : u.sym = numberSym) : hasErr (binNode acc t u) = hasErr acc := by
  rw [binNode, hasErr_node]
  simp [hasErr_tokLeaf, ht, hu, plusSym, numberSym, errorSym, binarySym]

theorem hasErr_binErrNode (acc e : Node) :
    hasErr (binErrNode acc e) = (hasErr acc || hasErr e) := by
  rw [binErrNode, hasErr_node]
  simp [binarySym, errorSym]

theorem parseExprLoop_wf : ∀ (ts : List Tok) (acc : Node), wfTail ts = true →
    hasErr acc = false →
    (parseExprLoop acc ts).2 = [] ∧ hasErr (parseExprLoop acc ts).1 = false := by
  intro ts
  induction ts using wfTail.induct with
  | case1 =>
    intro acc _ hacc
    rw [parseExprLoop]
    exact ⟨rfl, hacc⟩
  | case2 t =>
    intro acc hwf _
    rw [wfTail] at hwf
    exact absurd hwf (by simp)
  | case3 t u ts ih =>
    intro acc hwf hacc
    rw [wfTail] at hwf
    simp only [Bool.and_eq_true, beq_iff_eq] at hwf
    obtain ⟨⟨h1, h2⟩, h3⟩ := hwf
    rw [parseExprLoop, if_pos h1, if_pos h2]
    exact ih (binNode acc t u) h3 (by rw [hasErr_binNode acc t u h1 h2]; exact hacc)

theorem parseExprLoop_nwf : ∀ (ts : List Tok) (acc : Node), wfTail ts = false →
    hasErr (parseExprLoop acc ts).1 = true ∨ (parseExprLoop acc ts).2 ≠ [] := by
  intro ts
  induction ts using wfTail.induct with
  | case1 =>
    intro acc hwf
    rw [wfTail] at hwf
    exact absurd hwf (by simp)
  | case2 t =>
    intro acc _
    rw [parseExprLoop]
    by_cases hp : t.sym = plusSym
    · rw [if_pos hp]
      left
      rw [hasErr_binErrNode, hasErr_errNode]
      simp
    · rw [if_neg hp]
      right
      simp
  | case3 t u ts ih =>
    intro acc hwf
    rw [wfTail] at hwf
    rw [parseExprLoop]
    by_cases hp : t.sym = plusSym
    · rw [if_pos hp]
      by_cases hu : u.sym = numberSym
      · rw [if_pos hu]
        apply ih
        cases hw : wfTail ts
        · rfl
        · exfalso
          rw [hw] at hwf
          simp [hp, hu] at hwf
      · rw [if_neg hu]
        left
        rw [hasErr_binErrNode, hasErr_errNode]
        simp
    · rw [if_neg hp]
      right
      simp

theorem parseLineRel_wf {l : Src} (h : wellFormedLine (lexLine l) = true) :
    (parseLineRel l).any hasErr = false := by
  cases hlx : lexLine l with
  | nil =>
    have hout : parseLineRel l = [] := by
      simp only [parseLineRel, hlx]
    rw [hout]
    simp
  | cons t ts =>
    rw [hlx, wellFormedLine] at h
    simp only [Bool.and_eq_true, beq_iff_eq] at h
    obtain ⟨h1, h2⟩ := h
    have hleaf : hasErr (tokLeaf t) = false := by
      rw [hasErr_tokLeaf, h1]
      simp [numberSym, errorSym]
    have hloop := parseExprLoop_wf ts (tokLeaf t) h2 hleaf
    rcases hpr : parseExprLoop (tokLeaf t) ts with ⟨e, rest⟩
    rw [hpr] at hloop
    simp only at hloop
    obtain ⟨hrest, herr⟩ := hloop
    subst hrest
    have hout : parseLineRel l = [e] := by
      simp only [parseLineRel, hlx, if_pos h1, hpr]
    rw [hout]
    simp [herr]

theorem parseLineRel_nwf {l : Src} (h : wellFormedLine (lexLine l) = false) :
    (parseLineRel l).any hasErr = true := by
  cases hlx : lexLine l with
  | nil =>
    rw [hlx, wellFormedLine] at h
    exact absurd h (by simp)
  | cons t ts =>
    rw [hlx, wellFormedLine] at h
    by_cases h1 : t.sym = numberSym
    · have h2 : wfTail ts = false := by
        rcases Bool.eq_false_iff.mp h with hh
        cases hw : wfTail ts
        · rfl
        · exfalso
          apply hh
          simp only [Bool.and_eq_true, beq_iff_eq]
          exact ⟨h1, hw⟩
      have hloop := parseExprLoop_nwf ts (tokLeaf t) h2
      rcases hpr : parseExprLoop (tokLeaf t) ts with ⟨e, rest⟩
      rw [hpr] at hloop
      simp only at hloop
      cases hrest : rest with
      | nil =>
        have hout : parseLineRel l = [e] := by
          simp only [parseLineRel, hlx, if_pos h1, hpr, hrest]
        rw [hout]
        rcases hloop with herr | hne
        · simp [herr]
        · rw [hrest] at hne
          exact absurd rfl hne
      | cons r rs =>
        have hout : parseLineRel l = [e, errNode r rs] := by
          simp only [parseLineRel, hlx, if_pos h1, hpr, hrest]
        rw [hout]
        simp [hasErr_errNode]
    · have hout : parseLineRel l = [errNode t ts] := by
        simp only [parseLineRel, hlx, if_neg h1]
      rw [hout]
      simp [hasErr_errNode]

theorem any_hasErr_map_shiftUp (k : Nat) (l : List Node) :
    (l.map (shiftUp k)).any hasErr = l.any hasErr := by
  induction l with
  | nil => rfl
  | cons c cs ih => simp [List.any_cons, hasErr_shiftUp, ih]

theorem parseFrom_err_aux : ∀ (N : Nat) (s : Src), s.length ≤ N →
    ((parseFrom s).any hasErr = true ↔ wellFormed s = false) := by
  intro N
  induction N with
  | zero =>
    intro s hs
    have : s = [] := List.eq_nil_of_length_eq_zero (by omega)
    subst this
    rw [parseFrom_nil]
    constructor
    · intro hcon; simp at hcon
    · intro hcon
      rw [wellFormed] at hcon
      have h0 : linesOf ([] : Src) = [[]] := rfl
      rw [h0] at hcon
      simp [wellFormedLine, lexLine, lexGo] at hcon
  | succ N ih =>
  intro s hn
  have hsplit := List.takeWhile_append_dropWhile notNl s
  cases hrs : s.dropWhile notNl with
  | nil =>
    have hpf : parseFrom s = parseLineRel (s.takeWhile notNl) := by
      rw [parseFrom_unfold s]
      simp only [hrs]
      simp
    have hlines : linesOf s = [s.takeWhile notNl] := by
      rw [linesOf, linesGo_eq]
      simp only [hrs]
      simp
    have hwf : wellFormed s = wellFormedLine (lexLine (s.takeWhile notNl)) := by
      rw [wellFormed, hlines]
      simp
    rw [hpf, hwf]
    constructor
    · intro hany
      cases hwl : wellFormedLine (lexLine (s.takeWhile notNl))
      · rfl
      · rw [parseLineRel_wf hwl] at hany
        exact absurd hany (by simp)
    · intro hwl
      exact parseLineRel_nwf hwl
  | cons r s' =>
    have hpf : parseFrom s = parseLineRel (s.takeWhile notNl) ++
        (parseFrom s').map (shiftUp ((s.takeWhile notNl).length + 1)) := by
      rw [parseFrom_unfold s]
      simp only [hrs]
    have hlines : linesOf s = (s.takeWhile notNl) :: linesOf s' := by
      rw [linesOf, linesGo_eq]
      simp only [hrs]
      simp [linesOf]
    have hwf : wellFormed s = (wellFormedLine (lexLine (s.takeWhile notNl)) && wellFormed s') := by
      rw [wellFormed, hlines, List.all_cons, wellFormed]
    have hlen : s.length = (s.takeWhile notNl).length + 1 + s'.length := by
      have h0 := congrArg List.length hsplit
      rw [hrs] at h0
      simp at h0
      omega
    have ihs' := ih s' (by omega)
    rw [hpf, hwf]
    rw [List.any_append, any_hasErr_map_shiftUp]
    constructor
    · intro hany
      rcases Bool.or_eq_true_iff.mp hany with h1 | h2
      · cases hwl : wellFormedLine (lexLine (s.takeWhile notNl))
        · simp
        · rw [parseLineRel_wf hwl] at h1
          exact absurd h1 (by simp)
      · rw [ihs'.mp h2]
        simp
    · intro hwf2
      rcases Bool.and_eq_false_iff.mp hwf2 with h1 | h2
      · rw [parseLineRel_nwf h1]
        simp
      · rw [ihs'.mpr h2]
        simp

theorem parse_err_iff (s : Src) : hasErr (parse s) = true ↔ wellFormed s = false := by
  have h1 : hasErr (parse s) = (parseFrom s).any hasErr := by
    rw [parse, hasErr_node]
    simp [rootSym, errorSym]
  rw [h1]
  exact parseFrom_err_aux s.length s (Nat.le_refl _)

/-- Subtree relation: `OccursIn n t` means `n` is `t` itself or a node of one
of its subtrees. -/
inductive OccursIn : Node → Node → Prop where
  | refl (n : Node) : OccursIn n n
  | child {n c : Node} {s a b : Nat} {cs : NodeList} :
      c ∈ cs.toL → OccursIn n c → OccursIn n (.mk s a b cs)

theorem occursIn_node {n c : Node} {s a b : Nat} {cs : List Node}
    (hc : c ∈ cs) (h : OccursIn n c) : OccursIn n (node s a b cs) :=
  OccursIn.child (by rwa [NodeList.toL_ofL]) h

theorem occursIn_cases {n : Node} {s a b : Nat} {cs : List Node}
    (h : OccursIn n (node s a b cs)) :
    n = node s a b cs ∨ ∃ c ∈ cs, OccursIn n c := by
  cases h with
  | refl => left; rfl
  | child hc ho =>
    right
    rw [NodeList.toL_ofL] at hc
    exact ⟨_, hc, ho⟩

theorem occursIn_shiftUp_inv : ∀ {n w : Node}, OccursIn n w → ∀ (k : Nat) (m : Node),
    w = shiftUp k m → ∃ n0, OccursIn n0 m ∧ n = shiftUp k n0 := by
  intro n w h
  induction h with
  | refl =>
    intro k m hw
    exact ⟨m, OccursIn.refl m, hw⟩
  | child hc ho ih =>
    intro k m hw
    cases m with
    | mk s0 a0 b0 cs0 =>
      rw [shiftUp] at hw
      injection hw with e1 e2 e3 e4
      subst e4
      rw [shiftUpL_toL, List.mem_map] at hc
      obtain ⟨c0, hc0, rfl⟩ := hc
      obtain ⟨n0, hn0, rfl⟩ := ih k c0 rfl
      exact ⟨n0, OccursIn.child hc0 hn0, rfl⟩

theorem occursIn_bounds : ∀ {n t : Node}, OccursIn n t → nodeOkB t = true →
    t.sB ≤ n.sB ∧ n.eB ≤ t.eB ∧ nodeOkB n = true := by
  intro n t h
  induction h with
  | refl =>
    intro hok
    exact ⟨Nat.le_refl _, Nat.le_refl _, hok⟩
  | @child c s a b cs hc ho ih =>
    intro hok
    have hkid : nodeOkB c = true := by
      rw [nodeOkB, Bool.and_eq_true] at hok
      exact nodeOkL_mem cs hok.2 c hc
    have hch : chainWithin a cs.toL b = true := by
      rw [nodeOkB, Bool.and_eq_true, Bool.and_eq_true] at hok
      exact hok.1.2
    obtain ⟨hb1, hb2, hb3⟩ := chainWithin_mem cs.toL a b hch c hc
    obtain ⟨ha1, ha2, ha3⟩ := ih hkid
    simp only [sB_mk, eB_mk]
    exact ⟨by omega, by omega, ha3⟩

/-- Every node of a line's parse lies within that line. -/
theorem parseLineRel_occurs_bounds {l : Src} {c n : Node}
    (hc : c ∈ parseLineRel l) (ho : OccursIn n c) :
    n.eB ≤ l.length := by
  obtain ⟨hok, hchain⟩ := parseLineRel_ok l
  have h1 := (hok c hc).1
  have h2 := chainWithin_mem _ _ _ hchain c hc
  have h3 := occursIn_bounds ho h1
  omega

theorem parseFrom_occurs_noNl : ∀ (N : Nat) (s : Src), s.length ≤ N →
    ∀ (c n : Node), c ∈ parseFrom s → OccursIn n c →
    ∀ p, n.sB ≤ p → p < n.eB → s[p]? ≠ some nlB := by
  intro N
  induction N with
  | zero =>
    intro s hs c n hc _ _ _ _
    have : s = [] := List.eq_nil_of_length_eq_zero (by omega)
    subst this
    rw [parseFrom_nil] at hc
    exact absurd hc (List.not_mem_nil c)
  | succ N ih =>
  intro s hn c n hc ho p hp1 hp2
  have hsplit := List.takeWhile_append_dropWhile notNl s
  cases hrs : s.dropWhile notNl with
  | nil =>
    have hpf : parseFrom s = parseLineRel (s.takeWhile notNl) := by
      rw [parseFrom_unfold s]
      simp only [hrs]
      simp
    rw [hpf] at hc
    have hb := parseLineRel_occurs_bounds hc ho
    intro hcon
    have : nlB ∈ s.takeWhile notNl := by
      have hsL : s = s.takeWhile notNl := by
        conv_lhs => rw [← hsplit]
        rw [hrs, List.append_nil]
      rw [hsL] at hcon
      exact List.getElem?_mem hcon
    have := List.mem_takeWhile_imp this
    simp [notNl] at this
  | cons r s' =>
    have hpf : parseFrom s = parseLineRel (s.takeWhile notNl) ++
        (parseFrom s').map (shiftUp ((s.takeWhile notNl).length + 1)) := by
      rw [parseFrom_unfold s]
      simp only [hrs]
    have hlen : s.length = (s.takeWhile notNl).length + 1 + s'.length := by
      have h0 := congrArg List.length hsplit
      rw [hrs] at h0
      simp at h0
      omega
    rw [hpf] at hc
    rcases List.mem_append.mp hc with hc1 | hc2
    · have hb := parseLineRel_occurs_bounds hc1 ho
      intro hcon
      have hplt : p < (s.takeWhile notNl).length := by omega
      have e1 : s[p]? = (s.takeWhile notNl)[p]? := by
        conv_lhs => rw [← hsplit]
        exact List.getElem?_append_left hplt
      rw [e1] at hcon
      have : nlB ∈ s.takeWhile notNl := List.getElem?_mem hcon
      have := List.mem_takeWhile_imp this
      simp [notNl] at this
    · rw [List.mem_map] at hc2
      obtain ⟨c0, hc0, rfl⟩ := hc2
      obtain ⟨n0, hn0, rfl⟩ := occursIn_shiftUp_inv ho _ c0 rfl
      rw [sB_shiftUp] at hp1
      rw [eB_shiftUp] at hp2
      set j := (s.takeWhile notNl).length with hj
      have hq : p = j + 1 + (p - (j + 1)) := by omega
      have e1 : s[p]? = s'[p - (j + 1)]? := by
        conv_lhs => rw [← hsplit]
        rw [List.getElem?_append_right (by rw [← hj]; omega), hrs]
        have : p - j = p - (j + 1) + 1 := by omega
        rw [← hj, this, List.getElem?_cons_succ]
      rw [e1]
      exact ih s' (by omega) c0 n0 hc0 hn0 (p - (j + 1)) (by omega) (by omega)

/-- Modelled from the spec: error recovery resynchronises at the statement
terminator, so an error node's span never crosses a newline; together with
the full-span root this is the bounded-lookahead synchronisation guarantee. -/
theorem parse_error_local (s : Src) (n : Node) (ho : OccursIn n (parse s))
    (herr : n.symN = errorSym) :
    ∀ p, n.sB ≤ p → p < n.eB → s[p]? ≠ some nlB := by
  rcases occursIn_cases ho with hroot | ⟨c, hc, hco⟩
  · subst hroot
    rw [symN_node] at herr
    simp [rootSym, errorSym] at herr
  · exact parseFrom_occurs_noNl s.length s (Nat.le_refl _) c n hc hco

/-- C type expressions appearing in the binding header. -/
inductive CType : Type where
  | named (n : String) : CType
  | ptr (t : CType) : CType
  | constQual (t : CType) : CType
deriving DecidableEq, Repr

/-- A C type declaration: a forward (incomplete) declaration exposes no
member list. -/
structure CTypeDecl where
  tname : String
  members : Option (List String)
deriving DecidableEq, Repr

/-- A C function declaration: name, argument types and return type. -/
structure CFunDecl where
  fname : String
  argTys : List CType
  ret : CType
deriving DecidableEq, Repr

/-- Type declarations of the binding header
`src/grammar/bindings/swift/TreeSitterWabznasm/wabznasm.h`: the single line
`typedef struct TSLanguage TSLanguage;` — an incomplete type with no member
list exposed. -/
def headerTypeDecls : List CTypeDecl := [⟨"TSLanguage", none⟩]

/-- Function declarations of the binding header: the single line
`const TSLanguage *tree_sitter_wabznasm(void);` — no arguments, returning a
pointer to a const-qualified `TSLanguage`. -/
def headerFunDecls : List CFunDecl :=
  [⟨"tree_sitter_wabznasm", [], .ptr (.constQual (.named "TSLanguage"))⟩]

/-- Whether a type declaration exposes its internal layout to callers. -/
def exposesLayout (d : CTypeDecl) : Bool := d.members.isSome

/-- Whether a function returns a pointer to a const-qualified type that the
header leaves incomplete: such a return value can be neither inspected
structurally nor mutated through this interface. -/
def returnsConstOpaque (f : CFunDecl) : Bool :=
  match f.ret with
  | .ptr (.constQual (.named n)) =>
      headerTypeDecls.any (fun d => d.tname == n && !exposesLayout d)
  | _ => false

/-- Modelled from the spec: the opaque Language Table handle — an immutable,
versioned descriptor of the compiled grammar.  Its contents are opaque to
the engine's callers; only the stable ABI version is modelled. -/
structure TSLanguage where
  abiVersion : Nat
deriving DecidableEq, Repr

/-- Modelled from the spec: the compiled Language Table for this grammar, a
process-wide immutable value (the concrete version number is immaterial to
every claim). -/
def wabznasmLanguage : TSLanguage := ⟨14⟩

/-- Modelled from the spec: the single binding accessor.  It takes no
arguments and returns the same immutable handle on every call; the binding
surface contains no release operation and no mutating operation. -/
def tree_sitter_wabznasm : Unit → TSLanguage := fun _ => wabznasmLanguage

/-- A flattened tree record inside a node store: children are references to
earlier store indices (structural sharing). -/
structure NodeRec where
  recSym : Nat
  recS : Nat
  recE : Nat
  recKids : List Nat
deriving DecidableEq, Repr

/-- Modelled from the spec's design notes: node storage shared between an
old Tree and a new Tree (arena of records addressed by index). -/
abbrev Store := List NodeRec

/-- Read the tree denoted by index `i` of a store.  Children must be earlier
records (smaller indices), so fuel `i + 1` always suffices. -/
def denote : Nat → Store → Nat → Option Node
  | 0, _, _ => none
  | f + 1, st, i =>
    match st[i]? with
    | none => none
    | some r =>
      if r.recKids.all (fun k => decide (k < i)) then
        (r.recKids.mapM (fun k => denote f st k)).map
          (fun cs => node r.recSym r.recS r.recE cs)
      else none

/-- Tree handle: the tree denoted by a store index. -/
def treeOf (st : Store) (i : Nat) : Option Node := denote (i + 1) st i

mutual
/-- Append a tree to the store in post-order, returning the extended store
and the index of the root record.  The store is never mutated, only grown. -/
def intern : Store → Node → Store × Nat
  | st, .mk s a b cs =>
    ((internNL st cs).1 ++ [⟨s, a, b, (internNL st cs).2⟩], (internNL st cs).1.length)
/-- Append every tree of a child sequence, collecting their indices. -/
def internNL : Store → NodeList → Store × List Nat
  | st, .nil => (st, [])
  | st, .cons c cs =>
    ((internNL (intern st c).1 cs).1,
     (intern st c).2 :: (internNL (intern st c).1 cs).2)
end

/-- Modelled from the spec: producing an edited Tree from a previous Tree
handle.  The previous tree is read from the store, re-parsed incrementally
against the new text, and the resulting tree is appended to the store; no
existing record is modified (structural sharing, not destructive update). -/
def reparseInStore (st : Store) (i : Nat) (edits : List InputEdit) (newSrc : Src) :
    Store × Nat :=
  match treeOf st i with
  | none => (st, i)
  | some t => intern st (incrementalParse t edits newSrc)

theorem mapM_option_congr {α β : Type} (f g : α → Option β) :
    ∀ l : List α, (∀ x ∈ l, f x = g x) → l.mapM f = l.mapM g := by
  intro l
  induction l with
  | nil => intro _; rfl
  | cons x xs ih =>
    intro h
    rw [List.mapM_cons, List.mapM_cons, h x (List.mem_cons_self x xs),
      ih fun y hy => h y (List.mem_cons_of_mem x hy)]

/-- Reading an index below the old length is unaffected by appending
records: old handles never change meaning. -/
theorem denote_append : ∀ (f : Nat) (st ext : Store) (i : Nat), i < st.length →
    denote f (st ++ ext) i = denote f st i := by
  intro f
  induction f with
  | zero => intro st ext i _; rfl
  | succ f ih =>
    intro st ext i hi
    rw [denote, denote, List.getElem?_append_left hi]
    cases st[i]? with
    | none => rfl
    | some r =>
      simp only
      by_cases hall : r.recKids.all (fun k => decide (k < i)) = true
      · rw [if_pos hall, if_pos hall]
        have hcong : r.recKids.mapM (fun k => denote f (st ++ ext) k) =
            r.recKids.mapM (fun k => denote f st k) := by
          apply mapM_option_congr
          intro k hk
          have hki : k < i := by
            rw [List.all_eq_true] at hall
            have := hall k hk
            simpa using this
          exact ih st ext k (by omega)
        rw [hcong]
      · rw [if_neg hall, if_neg hall]

/-- Fuel beyond `i + 1` never changes the result of a read. -/
theorem denote_fuel : ∀ (i f : Nat) (st : Store), i + 1 ≤ f →
    denote f st i = denote (i + 1) st i := by
  intro i
  induction i using Nat.strong_induction_on with
  | _ i ihs =>
  intro f st hf
  match f with
  | f0 + 1 =>
    rw [denote, denote]
    cases st[i]? with
    | none => rfl
    | some r =>
      simp only
      by_cases hall : r.recKids.all (fun k => decide (k < i)) = true
      · rw [if_pos hall, if_pos hall]
        have hcong : r.recKids.mapM (fun k => denote f0 st k) =
            r.recKids.mapM (fun k => denote i st k) := by
          apply mapM_option_congr
          intro k hk
          have hki : k < i := by
            rw [List.all_eq_true] at hall
            have := hall k hk
            simpa using this
          have e1 : denote f0 st k = denote (k + 1) st k := ihs k hki f0 st (by omega)
          have e2 : denote i st k = denote (k + 1) st k := ihs k hki i st (by omega)
          rw [e1, e2]
        rw [hcong]
      · rw [if_neg hall, if_neg hall]

mutual
theorem intern_spec : ∀ (t : Node) (st : Store),
    (∃ ext, (intern st t).1 = st ++ ext) ∧
    (intern st t).2 < (intern st t).1.length ∧
    ∀ f, (intern st t).1.length ≤ f →
      denote f (intern st t).1 (intern st t).2 = some t
  | .mk s a b cs, st => by
    obtain ⟨⟨ext1, he1⟩, hjs, hden⟩ := internNL_spec cs st
    rw [intern]
    refine ⟨⟨ext1 ++ [⟨s, a, b, (internNL st cs).2⟩], by rw [← List.append_assoc, ← he1]⟩,
      ?_, ?_⟩
    · simp
    · intro f hf
      simp only [List.length_append, List.length_cons, List.length_nil] at hf
      match f, hf with
      | f0 + 1, hf =>
        rw [denote]
        rw [List.getElem?_concat_length]
        simp only
        have hall : (internNL st cs).2.all
            (fun k => decide (k < (internNL st cs).1.length)) = true := by
          rw [List.all_eq_true]
          intro k hk
          simpa using hjs k hk
        rw [if_pos hall]
        have hcong : (internNL st cs).2.mapM
            (fun k => denote f0 ((internNL st cs).1 ++ [⟨s, a, b, (internNL st cs).2⟩]) k) =
            (internNL st cs).2.mapM (fun k => denote f0 (internNL st cs).1 k) := by
          apply mapM_option_congr
          intro k hk
          exact denote_append f0 (internNL st cs).1 _ k (hjs k hk)
        rw [hcong, hden f0 (by omega)]
        show some (node s a b cs.toL) = some (Node.mk s a b cs)
        rw [node, NodeList.ofL_toL]
theorem internNL_spec : ∀ (cs : NodeList) (st : Store),
    (∃ ext, (internNL st cs).1 = st ++ ext) ∧
    (∀ j ∈ (internNL st cs).2, j < (internNL st cs).1.length) ∧
    ∀ f, (internNL st cs).1.length ≤ f →
      (internNL st cs).2.mapM (fun k => denote f (internNL st cs).1 k) = some cs.toL
  | .nil, st => by
    rw [internNL]
    refine ⟨⟨[], by simp⟩, ?_, ?_⟩
    · intro j hj
      exact absurd hj (List.not_mem_nil j)
    · intro f _
      rfl
  | .cons c cs, st => by
    obtain ⟨⟨ext1, he1⟩, hj1, hden1⟩ := intern_spec c st
    obtain ⟨⟨ext2, he2⟩, hjs, hden2⟩ := internNL_spec cs (intern st c).1
    rw [internNL]
    simp only
    have hlen12 : (intern st c).1.length ≤ (internNL (intern st c).1 cs).1.length := by
      rw [he2]
      simp
    refine ⟨⟨ext1 ++ ext2, by rw [← List.append_assoc, ← he1, ← he2]⟩, ?_, ?_⟩
    · intro x hx
      rcases List.mem_cons.mp hx with rfl | hx'
      · omega
      · exact hjs x hx'
    · intro f hf
      rw [List.mapM_cons]
      have hdj : denote f (internNL (intern st c).1 cs).1 (intern st c).2 = some c := by
        rw [he2, denote_append f (intern st c).1 ext2 (intern st c).2 hj1]
        exact hden1 f (by omega)
      rw [hdj, hden2 f (by omega)]
      simp [NodeList.toL]
end

/-- Modelled from the spec: producing an edited Tree does not mutate the
original — all existing store records are preserved verbatim, every old
handle still denotes exactly the tree it denoted before, and the new handle
denotes the incrementally re-parsed tree. -/
theorem reparseInStore_preserves (st : Store) (i : Nat) (edits : List InputEdit)
    (newSrc : Src) :
    (reparseInStore st i edits newSrc).1.take st.length = st ∧
    (∀ k, k < st.length → ∀ f, denote f (reparseInStore st i edits newSrc).1 k =
      denote f st k) ∧
    (∀ t, treeOf st i = some t →
      treeOf (reparseInStore st i edits newSrc).1 (reparseInStore st i edits newSrc).2 =
        some (incrementalParse t edits newSrc)) := by
  cases htO : treeOf st i with
  | none =>
    have hR : reparseInStore st i edits newSrc = (st, i) := by
      rw [reparseInStore, htO]
    rw [hR]
    refine ⟨List.take_length st, ?_, ?_⟩
    · intro k _ f; rfl
    · intro t ht
      exact Option.noConfusion ht
  | some t0 =>
    have hR : reparseInStore st i edits newSrc =
        intern st (incrementalParse t0 edits newSrc) := by
      rw [reparseInStore, htO]
    rw [hR]
    obtain ⟨⟨ext, hext⟩, hjlt, hden⟩ := intern_spec (incrementalParse t0 edits newSrc) st
    refine ⟨?_, ?_, ?_⟩
    · rw [hext, List.take_left]
    · intro k hk f
      rw [hext]
      exact denote_append f st ext k hk
    · intro t ht
      injection ht with ht
      subst ht
      rw [treeOf]
      have hfuel := denote_fuel (intern st (incrementalParse t0 edits newSrc)).2
        (max (intern st (incrementalParse t0 edits newSrc)).1.length
          ((intern st (incrementalParse t0 edits newSrc)).2 + 1))
        (intern st (incrementalParse t0 edits newSrc)).1
        (Nat.le_max_right _ _)
      rw [← hfuel]
      exact hden _ (Nat.le_max_left _ _)

/-- C1: for every source text `s`, every ordered Edit Descriptor sequence
transforming `s` into `s2`, and the Tree obtained by parsing `s`, the tree
produced by incrementally re-parsing `s2` from that prior Tree is
structurally equal — same node symbols, byte ranges (and hence the point
ranges derived from byte offsets and the common text `s2`) and child
sequences — to the tree produced by a full from-scratch parse of `s2`. -/
theorem claim_c1 (s : Src) (edits : List InputEdit) (s2 : Src)
    (h : EditScript s edits s2) :
    incrementalParse (parse s) edits s2 = parse s2 :=
  increparse_eq_parse s edits s2 h

theorem claim_c1_witness :
    incrementalParse (parse [49, 32, 43, 32, 50]) [⟨4, 5, 5⟩] [49, 32, 43, 32, 51] =
      parse [49, 32, 43, 32, 51] :=
  claim_c1 [49, 32, 43, 32, 50] [⟨4, 5, 5⟩] [49, 32, 43, 32, 51]
    ⟨[49, 32, 43, 32, 51], by decide, rfl⟩

/-- C2: for a fixed Language Table (the grammar is a fixed constant of this
model, consumed read-only), two parses of identical text yield structurally
identical trees: the parse function is deterministic over its explicit
inputs, and an incremental re-parse with an empty edit sequence returns a
tree structurally identical to the full parse. -/
theorem claim_c2 (s1 s2 : Src) (h : s1 = s2) :
    parse s1 = parse s2 ∧ incrementalParse (parse s1) [] s2 = parse s2 := by
  subst h
  exact ⟨rfl, increparse_eq_parse s1 [] s1 rfl⟩

theorem claim_c2_witness :
    parse [49, 43, 50] = parse [49, 43, 50] ∧
    incrementalParse (parse [49, 43, 50]) [] [49, 43, 50] = parse [49, 43, 50] :=
  claim_c2 [49, 43, 50] [49, 43, 50] rfl

/-- C3: parsing is total — for every input (the parse function is defined on
all byte sequences and always returns a Tree, never an empty result) the
root spans the entire input, and when the input is malformed the tree
contains at least one error-marked node. -/
theorem claim_c3 (s : Src) :
    ((parse s).sB = 0 ∧ (parse s).eB = s.length) ∧
    (wellFormed s = false → hasErr (parse s) = true) := by
  refine ⟨⟨rfl, rfl⟩, ?_⟩
  intro h
  exact (parse_err_iff s).mpr h

theorem claim_c3_witness :
    ((parse [49, 43]).sB = 0 ∧ (parse [49, 43]).eB = 2) ∧
    hasErr (parse [49, 43]) = true :=
  ⟨(claim_c3 [49, 43]).1, (claim_c3 [49, 43]).2 (by decide)⟩

/-- C4: for every well-formed input accepted by the grammar, the resulting
Tree's root byte span equals the full input byte range and no node carries
an error marker. -/
theorem claim_c4 (s : Src) (h : wellFormed s = true) :
    (parse s).sB = 0 ∧ (parse s).eB = s.length ∧ hasErr (parse s) = false := by
  refine ⟨rfl, rfl, ?_⟩
  cases he : hasErr (parse s)
  · rfl
  · have := (parse_err_iff s).mp he
    rw [h] at this
    exact Bool.noConfusion this

theorem claim_c4_witness :
    (parse [49, 32, 43, 32, 50]).sB = 0 ∧ (parse [49, 32, 43, 32, 50]).eB = 5 ∧
    hasErr (parse [49, 32, 43, 32, 50]) = false :=
  claim_c4 [49, 32, 43, 32, 50] (by decide)

/-- C5: in every tree produced by a parse — full or incremental — every
node's children have pairwise non-overlapping byte ranges, monotonically
increasing in source order, and the parent's range contains the union of the
children's ranges (`nodeOkB` checks exactly this at every node). -/
theorem claim_c5 (s : Src) :
    nodeOkB (parse s) = true ∧
    ∀ (s0 : Src) (edits : List InputEdit), EditScript s0 edits s →
      nodeOkB (incrementalParse (parse s0) edits s) = true := by
  refine ⟨parse_ok s, ?_⟩
  intro s0 edits h
  rw [increparse_eq_parse s0 edits s h]
  exact parse_ok s

theorem claim_c5_witness :
    nodeOkB (parse [49, 43, 50]) = true ∧
    nodeOkB (incrementalParse (parse [49, 43, 51]) [⟨2, 3, 3⟩] [49, 43, 50]) = true :=
  ⟨(claim_c5 [49, 43, 50]).1,
   (claim_c5 [49, 43, 50]).2 [49, 43, 51] [⟨2, 3, 3⟩] ⟨[49, 43, 50], by decide, rfl⟩⟩

/-- C6: the binding surface consists of exactly one accessor function,
`tree_sitter_wabznasm`, which takes no arguments and returns an opaque
handle to the compiled Language Table (a pointer to a const-qualified
incomplete type in the header); in the spec-modelled semantics the accessor
is a pure constant, so the handle is immutable, identical on every call for
the whole process lifetime, and there is no release operation. -/
theorem claim_c6 :
    headerFunDecls.length = 1 ∧
    (∀ f ∈ headerFunDecls, f.fname = "tree_sitter_wabznasm" ∧ f.argTys = [] ∧
      returnsConstOpaque f = true) ∧
    (∀ u v : Unit, tree_sitter_wabznasm u = tree_sitter_wabznasm v) := by
  refine ⟨rfl, ?_, ?_⟩
  · intro f hf
    rcases List.mem_cons.mp hf with rfl | hf'
    · exact ⟨rfl, rfl, by decide⟩
    · exact absurd hf' (List.not_mem_nil f)
  · intro u v
    rfl

theorem claim_c6_witness :
    (⟨"tree_sitter_wabznasm", [],
      CType.ptr (CType.constQual (CType.named "TSLanguage"))⟩ : CFunDecl).fname =
        "tree_sitter_wabznasm" ∧
    (⟨"tree_sitter_wabznasm", [],
      CType.ptr (CType.constQual (CType.named "TSLanguage"))⟩ : CFunDecl).argTys = [] ∧
    returnsConstOpaque ⟨"tree_sitter_wabznasm", [],
      CType.ptr (CType.constQual (CType.named "TSLanguage"))⟩ = true ∧
    tree_sitter_wabznasm () = tree_sitter_wabznasm () :=
  ⟨(claim_c6.2.1 _ (by decide)).1, (claim_c6.2.1 _ (by decide)).2.1,
   (claim_c6.2.1 _ (by decide)).2.2, claim_c6.2.2 () ()⟩

/-- C7 counterexample: the claim fails as stated.  Source `1` is edited by
inserting one byte at position 0 (old edited range `[0, 0)`, empty), giving
`91`.  The number node spanning `[0, 1)` lies entirely outside the edited
old byte range, and the cumulative shift of the edits preceding it is `+1`,
yet the incremental re-parse does not reuse it translated to `[1, 2)`: the
inserted digit merges with the old token into one `91` token, so the
subtree adjacent to the edit boundary is invalidated, exactly as the spec's
conservative-invalidation clause requires. -/
theorem claim_c7_counterexample :
    EditScript [49] [⟨0, 0, 1⟩] [57, 49] ∧
    node numberSym 0 1 [] ∈ (parse [49]).kidsL ∧
    (∀ e ∈ [(⟨0, 0, 1⟩ : InputEdit)],
      e.oldEndByte ≤ (node numberSym 0 1 []).sB ∨
      (node numberSym 0 1 []).eB ≤ e.startByte) ∧
    shiftUp 1 (node numberSym 0 1 []) ∉
      (incrementalParse (parse [49]) [⟨0, 0, 1⟩] [57, 49]).kidsL := by
  refine ⟨⟨[57, 49], by decide, rfl⟩, by decide, ?_, by decide⟩
  intro e he
  rcases List.mem_cons.mp he with rfl | he'
  · left; decide
  · exact absurd he' (List.not_mem_nil e)

/-- C7 (amended): reuse at the engine's granularity with conservative
invalidation.  Let `b1` be the start of the line containing the first
edited byte, `b2` the first line boundary at or past the edited window's
end, and `oldB2` the position of `b2` in old-text coordinates.  Every
top-level subtree of the previous Tree ending at or before `b1` is reused
verbatim (all fields unchanged — zero shift, as every edit lies after it),
and every top-level subtree starting at or after `oldB2` is reused with its
byte range translated by the cumulative byte-length shift
(`moveNode oldB2 b2`, a translation by the net delta of the edits); in both
cases the reused subtree is a top-level subtree of the from-scratch parse of
the new text.  Subtrees adjacent to or sharing a line with the edited window
are conservatively invalidated and re-parsed instead. -/
theorem claim_c7_amended (s : Src) (edits : List InputEdit) (s2 : Src)
    (h : EditScript s edits s2) :
    ∀ c ∈ (parse s).kidsL,
      (c.eB ≤ lastBoundary (s2.take (min (summOf s.length edits).lo s2.length)) →
        c ∈ (parse s2).kidsL) ∧
      ((summOf s.length edits).oldHi +
          (max (lastBoundary (s2.take (min (summOf s.length edits).lo s2.length)))
            (breakAfter s2 (summOf s.length edits).hiCur) -
           (summOf s.length edits).hiCur) ≤ c.sB →
        moveNode
          ((summOf s.length edits).oldHi +
            (max (lastBoundary (s2.take (min (summOf s.length edits).lo s2.length)))
              (breakAfter s2 (summOf s.length edits).hiCur) -
             (summOf s.length edits).hiCur))
          (max (lastBoundary (s2.take (min (summOf s.length edits).lo s2.length)))
            (breakAfter s2 (summOf s.length edits).hiCur)) c ∈ (parse s2).kidsL) := by
  intro c hc
  rw [← increparse_eq_parse s edits s2 h]
  set b1 := lastBoundary (s2.take (min (summOf s.length edits).lo s2.length)) with hb1
  set b2 := max b1 (breakAfter s2 (summOf s.length edits).hiCur) with hb2
  set oldB2 := (summOf s.length edits).oldHi + (b2 - (summOf s.length edits).hiCur)
    with holdB2
  have hstep : (incrementalParse (parse s) edits s2).kidsL =
      ((parse s).kidsL.filter (fun c => decide (c.sB < b1)) ++
       (parseFrom ((s2.drop b1).take (b2 - b1))).map (shiftUp b1) ++
       ((parse s).kidsL.filter (fun c => decide (oldB2 ≤ c.sB))).map
         (moveNode oldB2 b2)) := by
    rw [incrementalParse, kidsL_node]
    rfl
  rw [hstep]
  have hstrict : c.sB < c.eB := by
    rw [parse_kidsL] at hc
    exact (parseFrom_mem_bounds s c hc).1
  constructor
  · intro hce
    apply List.mem_append_left
    apply List.mem_append_left
    rw [List.mem_filter]
    exact ⟨hc, by simp only [decide_eq_true_eq]; omega⟩
  · intro hcs
    apply List.mem_append_right
    rw [List.mem_map]
    refine ⟨c, ?_, rfl⟩
    rw [List.mem_filter]
    exact ⟨hc, by simp only [decide_eq_true_eq]; omega⟩

theorem claim_c7_witness :
    node numberSym 0 2 [] ∈ (parse [49, 50, 10, 51, 53, 10, 53, 54]).kidsL ∧
    moveNode 6 6 (node numberSym 6 8 []) ∈
      (parse [49, 50, 10, 51, 53, 10, 53, 54]).kidsL :=
  ⟨(claim_c7_amended [49, 50, 10, 51, 52, 10, 53, 54] [⟨4, 5, 5⟩]
      [49, 50, 10, 51, 53, 10, 53, 54] ⟨[49, 50, 10, 51, 53, 10, 53, 54], by decide, rfl⟩
      (node numberSym 0 2 []) (by decide)).1 (by decide),
   (claim_c7_amended [49, 50, 10, 51, 52, 10, 53, 54] [⟨4, 5, 5⟩]
      [49, 50, 10, 51, 53, 10, 53, 54] ⟨[49, 50, 10, 51, 53, 10, 53, 54], by decide, rfl⟩
      (node numberSym 6 8 []) (by decide)).2 (by decide)⟩

/-- C8: parsing is a total function (defined on every byte sequence) that
always produces a full-span Tree, and error recovery's synchronisation is
bounded: an error node's span never reaches past the statement terminator
that recovery resynchronises at — no error node's span contains a newline
byte. -/
theorem claim_c8 (s : Src) :
    ((parse s).sB = 0 ∧ (parse s).eB = s.length) ∧
    ∀ n, OccursIn n (parse s) → n.symN = errorSym →
      ∀ p, n.sB ≤ p → p < n.eB → s[p]? ≠ some nlB :=
  ⟨⟨rfl, rfl⟩, fun n ho he p h1 h2 => parse_error_local s n ho he p h1 h2⟩

theorem claim_c8_witness :
    ((parse [49, 43]).sB = 0 ∧ (parse [49, 43]).eB = 2) ∧
    [49, 43][1]? ≠ some nlB :=
  ⟨(claim_c8 [49, 43]).1,
   (claim_c8 [49, 43]).2 (Node.mk 4 1 2 (.cons (.mk 2 1 2 .nil) .nil))
     (show OccursIn (Node.mk 4 1 2 (.cons (.mk 2 1 2 .nil) .nil)) (parse [49, 43]) from
       @OccursIn.child (Node.mk 4 1 2 (.cons (.mk 2 1 2 .nil) .nil))
         (Node.mk 3 0 2 (.cons (.mk 1 0 1 .nil)
           (.cons (.mk 4 1 2 (.cons (.mk 2 1 2 .nil) .nil)) .nil)))
         0 0 2
         (.cons (Node.mk 3 0 2 (.cons (.mk 1 0 1 .nil)
           (.cons (.mk 4 1 2 (.cons (.mk 2 1 2 .nil) .nil)) .nil))) .nil)
         (by decide)
         (@OccursIn.child (Node.mk 4 1 2 (.cons (.mk 2 1 2 .nil) .nil))
           (Node.mk 4 1 2 (.cons (.mk 2 1 2 .nil) .nil))
           3 0 2
           (.cons (Node.mk 1 0 1 .nil)
             (.cons (.mk 4 1 2 (.cons (.mk 2 1 2 .nil) .nil)) .nil))
           (by decide) (OccursIn.refl _)))
     (by decide) 1 (by decide) (by decide)⟩

/-- C9: producing an edited Tree from a previous Tree never mutates the
original.  In the shared node store, the re-parse only appends records: the
old store is a prefix of the new one, every old handle denotes exactly the
tree it denoted before (every node, range and child sequence unchanged), and
the new handle denotes the incrementally re-parsed tree. -/
theorem claim_c9 (st : Store) (i : Nat) (edits : List InputEdit) (newSrc : Src) :
    (reparseInStore st i edits newSrc).1.take st.length = st ∧
    (∀ k, k < st.length → ∀ f, denote f (reparseInStore st i edits newSrc).1 k =
      denote f st k) ∧
    (∀ t, treeOf st i = some t →
      treeOf (reparseInStore st i edits newSrc).1 (reparseInStore st i edits newSrc).2 =
        some (incrementalParse t edits newSrc)) :=
  reparseInStore_preserves st i edits newSrc

theorem claim_c9_witness :
    (reparseInStore [⟨1, 0, 1, []⟩, ⟨0, 0, 1, [0]⟩] 1 [⟨0, 0, 1⟩] [57, 49]).1.take 2 =
      [⟨1, 0, 1, []⟩, ⟨0, 0, 1, [0]⟩] ∧
    denote 1 (reparseInStore [⟨1, 0, 1, []⟩, ⟨0, 0, 1, [0]⟩] 1 [⟨0, 0, 1⟩] [57, 49]).1 0 =
      denote 1 [⟨1, 0, 1, []⟩, ⟨0, 0, 1, [0]⟩] 0 ∧
    treeOf (reparseInStore [⟨1, 0, 1, []⟩, ⟨0, 0, 1, [0]⟩] 1 [⟨0, 0, 1⟩] [57, 49]).1
        (reparseInStore [⟨1, 0, 1, []⟩, ⟨0, 0, 1, [0]⟩] 1 [⟨0, 0, 1⟩] [57, 49]).2 =
      some (incrementalParse (Node.mk 0 0 1 (.cons (.mk 1 0 1 .nil) .nil))
        [⟨0, 0, 1⟩] [57, 49]) :=
  ⟨(claim_c9 [⟨1, 0, 1, []⟩, ⟨0, 0, 1, [0]⟩] 1 [⟨0, 0, 1⟩] [57, 49]).1,
   (claim_c9 [⟨1, 0, 1, []⟩, ⟨0, 0, 1, [0]⟩] 1 [⟨0, 0, 1⟩] [57, 49]).2.1 0 (by decide) 1,
   (claim_c9 [⟨1, 0, 1, []⟩, ⟨0, 0, 1, [0]⟩] 1 [⟨0, 0, 1⟩] [57, 49]).2.2
     (Node.mk 0 0 1 (.cons (.mk 1 0 1 .nil) .nil)) (by decide)⟩

/-- C10: the header exposes `TSLanguage` to callers only as an incomplete
(forward-declared) type with no member list, and the accessor returns a
pointer to a const-qualified `TSLanguage`; through this interface no caller
can inspect the table's internal layout or mutate the table, so the language
table obtained from `tree_sitter_wabznasm` is read-only for all callers. -/
theorem claim_c10 :
    (∀ d ∈ headerTypeDecls, exposesLayout d = false) ∧
    (∀ f ∈ headerFunDecls, returnsConstOpaque f = true) := by
  constructor
  · intro d hd
    rcases List.mem_cons.mp hd with rfl | hd'
    · rfl
    · exact absurd hd' (List.not_mem_nil d)
  · intro f hf
    rcases List.mem_cons.mp hf with rfl | hf'
    · decide
    · exact absurd hf' (List.not_mem_nil f)

theorem claim_c10_witness :
    exposesLayout ⟨"TSLanguage", none⟩ = false ∧
    returnsConstOpaque ⟨"tree_sitter_wabznasm", [],
      CType.ptr (CType.constQual (CType.named "TSLanguage"))⟩ = true :=
  ⟨claim_c10.1 _ (by decide), claim_c10.2 _ (by decide)⟩

end Wabznasm
